import Mathlib

/-!
# Verification of the value-object interning cache (`src/index.ts`)

A shallow embedding of the `valueObjectCache` singleton: the path-indexed
cache tree (`CacheTreeNode`), the private `#get` walk (`get`), the
`FinalizationRegistry` pruning callback (`pruneRoot`), and the public
canonicalizing accessors `getByValue` / `getArrayByValue` /
`getObjectByValue` (`getByValueF` / `getArrayByValueF` /
`getObjectByValueF`).

Modelling conventions:
* JavaScript objects are identified by allocation order: a `Store` carries a
  `heap : List Obj`, and an object is the index at which it was allocated.
  A `WeakRef` is the index it points to; `deref` consults an external
  liveness map `live : Nat → Bool` (an index is live while some strong
  reference outside the cache still reaches it).
* JavaScript numbers are modelled as `nan`, `negZero`, or an integer; this
  carries exactly the structure same-value-zero equality distinguishes
  (`NaN = NaN`, `+0 = -0`) in the inputs the cache handles.
* A JS `Map` is an insertion-ordered association list whose lookups compare
  keys with same-value-zero equality; `Map.set` on an existing key keeps
  the originally stored key object, as JS does.
* Factories allocate a fresh object; the object a factory would build is
  passed to `get` as `fObj` (its `ctor` field is what
  `instance.constructor` reports, checked against the requested
  constructor).
* The canonicalizer's recursion is not structurally bounded in the source
  (cyclic values recurse forever, documented caller responsibility), so the
  model takes a fuel parameter; exhausting it yields the artificial
  `Err.noFuel`, distinct from the two real errors the source can throw.
-/

set_option autoImplicit false

namespace ValueObjectCache

/-- A JavaScript number, keeping exactly the distinctions same-value-zero
equality cares about: `NaN`, `-0`, and other (integer-valued) numbers. -/
inductive JSNum where
  | nan : JSNum
  | negZero : JSNum
  | int (i : Int) : JSNum
  deriving DecidableEq, Repr

/-- A JavaScript primitive (`isPrimitive` in the source: anything that is
neither a function nor a non-null object). Symbols compare by identity. -/
inductive Prim where
  | str (s : String) : Prim
  | num (n : JSNum) : Prim
  | bool (b : Bool) : Prim
  | sym (id : Nat) : Prim
  | bigint (i : Int) : Prim
  | null : Prim
  | undef : Prim
  deriving DecidableEq, Repr

/-- A path component as stored in the cache tree: a primitive, a reference
to a heap object (an already-interned instance), or a constructor
(functions are heap objects too; they live in their own namespace here
because an interned instance is never a function). -/
inductive Key where
  | prim (p : Prim) : Key
  | obj (id : Nat) : Key
  | ctorK (c : Nat) : Key
  deriving DecidableEq, Repr

/-- Same-value-zero equality on numbers: `NaN` equals `NaN`, `-0` equals
`+0`, everything else is ordinary equality. -/
def svzNum : JSNum → JSNum → Bool
  | JSNum.nan, JSNum.nan => true
  | JSNum.negZero, JSNum.negZero => true
  | JSNum.negZero, JSNum.int i => i == 0
  | JSNum.int i, JSNum.negZero => i == 0
  | JSNum.int a, JSNum.int b => a == b
  | _, _ => false

/-- Same-value-zero equality on primitives. -/
def svzPrim : Prim → Prim → Bool
  | Prim.str a, Prim.str b => a == b
  | Prim.num a, Prim.num b => svzNum a b
  | Prim.bool a, Prim.bool b => a == b
  | Prim.sym a, Prim.sym b => a == b
  | Prim.bigint a, Prim.bigint b => a == b
  | Prim.null, Prim.null => true
  | Prim.undef, Prim.undef => true
  | _, _ => false

/-- Same-value-zero equality on path components; objects and constructors
compare by reference identity. This is the key equality of a JS `Map`. -/
def svzKey : Key → Key → Bool
  | Key.prim a, Key.prim b => svzPrim a b
  | Key.obj a, Key.obj b => a == b
  | Key.ctorK a, Key.ctorK b => a == b
  | _, _ => false

/-- `Map.get`: first entry whose stored key is same-value-zero equal. -/
def alookup {α : Type} (m : List (Key × α)) (k : Key) : Option α :=
  match m with
  | [] => none
  | (k0, v0) :: rest => if svzKey k0 k then some v0 else alookup rest k

/-- `Map.set`: replace the value of the first matching entry (keeping the
originally stored key, as JS does), else append a new entry. -/
def aset {α : Type} (m : List (Key × α)) (k : Key) (v : α) : List (Key × α) :=
  match m with
  | [] => [(k, v)]
  | (k0, v0) :: rest => if svzKey k0 k then (k0, v) :: rest else (k0, v0) :: aset rest k v

/-- `Map.delete`: remove the first matching entry. -/
def adelete {α : Type} (m : List (Key × α)) (k : Key) : List (Key × α) :=
  match m with
  | [] => []
  | (k0, v0) :: rest => if svzKey k0 k then rest else (k0, v0) :: adelete rest k

/-- A cache tree node (`CacheTreeNode` in the source): an optional child
map and an optional weak reference to the stored instance. -/
inductive CacheTreeNode where
  | mk (children : Option (List (Key × CacheTreeNode))) (instanceRef : Option Nat) : CacheTreeNode

def CacheTreeNode.children : CacheTreeNode → Option (List (Key × CacheTreeNode))
  | CacheTreeNode.mk c _ => c

def CacheTreeNode.instanceRef : CacheTreeNode → Option Nat
  | CacheTreeNode.mk _ r => r

/-- `WeakRef.deref` through the external liveness map: a weak reference to a
collected object dereferences to nothing. -/
def derefO (live : Nat → Bool) : Option Nat → Option Nat
  | none => none
  | some i => if live i then some i else none

/-- Walk a path from a node, creating missing nodes on the way (the loop of
`#get`, lines 125–133): each missing child map becomes a map, each missing
child becomes a fresh empty node. -/
def walkEnsure : CacheTreeNode → List Key → CacheTreeNode
  | n, [] => n
  | CacheTreeNode.mk c r, k :: rest =>
    let m := c.getD []
    let child := (alookup m k).getD (CacheTreeNode.mk none none)
    CacheTreeNode.mk (some (aset m k (walkEnsure child rest))) r

/-- Follow a path without modifying anything; `none` when the path is not
fully present. -/
def lookupNode : CacheTreeNode → List Key → Option CacheTreeNode
  | n, [] => some n
  | CacheTreeNode.mk c _, k :: rest =>
    match c with
    | none => none
    | some m =>
      match alookup m k with
      | none => none
      | some child => lookupNode child rest

/-- Store a weak reference at the terminal node of a (present) path
(`node.instanceRef = new WeakRef(instance)`, line 144). -/
def setRefAt : CacheTreeNode → List Key → Nat → CacheTreeNode
  | CacheTreeNode.mk c _, [], i => CacheTreeNode.mk c (some i)
  | CacheTreeNode.mk c r, k :: rest, i =>
    match c with
    | none => CacheTreeNode.mk c r
    | some m =>
      match alookup m k with
      | none => CacheTreeNode.mk c r
      | some child => CacheTreeNode.mk (some (aset m k (setRefAt child rest i))) r

/-- The instance reference recorded at the end of a path, if any. -/
def pathInst (t : CacheTreeNode) (q : List Key) : Option Nat :=
  (lookupNode t q).bind CacheTreeNode.instanceRef

/-- The live cached instance at the end of a path
(`node.instanceRef?.deref()`, line 135). -/
def cachedAt (live : Nat → Bool) (t : CacheTreeNode) (q : List Key) : Option Nat :=
  (lookupNode t q).bind fun n => derefO live n.instanceRef

/-- A heap object: what `instance.constructor` reports, whether it is a JS
array (`Array.isArray`), whether it is a `ValueObject`
(`instanceof ValueObject`), and — for interned arrays — its canonical
elements. -/
structure Obj where
  ctor : Nat
  isArr : Bool
  isVO : Bool
  elems : List Key
  deriving DecidableEq, Repr

/-- The constructor identity of `Array`. -/
def arrayCtor : Nat := 0

/-- The mutable state of the cache: the tree rooted at `#rootNode` and the
allocation-ordered heap of every object a factory has created. -/
structure Store where
  tree : CacheTreeNode
  heap : List Obj

/-- The two errors the source can throw, plus the artificial fuel marker
(see the module docstring). Both source errors are `TypeError`s with
distinct messages: `factoryTypeMismatch` is
"factory must return an instance of the provided constructor" (line 140),
`invalidValue` is "Invalid value type: a value must be a primitive, an
array, or a ValueObject." (line 178). -/
inductive Err where
  | invalidValue : Err
  | factoryTypeMismatch : Err
  | noFuel : Err
  deriving DecidableEq, Repr

/-- Outcome of one `#get` call: the returned instance or the thrown error,
the state it leaves behind, and whether the factory was invoked. -/
structure GetOut where
  result : Except Err Nat
  store : Store
  factoryCalled : Bool

/-- The private `#get(constructor, values, factory)` (lines 120–148): walk
and create nodes along `[constructor, ...values]`; return the live cached
instance if the terminal node holds one; otherwise invoke the factory
(which allocates `fObj` at the next heap index), throw if its constructor
differs from the requested one, else store a weak reference at the terminal
node and return the fresh instance. -/
def get (live : Nat → Bool) (ctor : Nat) (values : List Key) (fObj : Obj) (s : Store) : GetOut :=
  let path := Key.ctorK ctor :: values
  let t1 := walkEnsure s.tree path
  match cachedAt live t1 path with
  | some i => ⟨Except.ok i, ⟨t1, s.heap⟩, false⟩
  | none =>
    let i := s.heap.length
    let heap2 := s.heap ++ [fObj]
    if fObj.ctor = ctor then ⟨Except.ok i, ⟨setRefAt t1 path i, heap2⟩, true⟩
    else ⟨Except.error Err.factoryTypeMismatch, ⟨t1, heap2⟩, true⟩

/-- Result of processing one node of the pruning walk: either the node was
deleted from its parent (`removed`, continue upward) or it survives
(`stop`: the loop breaks and no ancestor is touched). -/
inductive PruneRes where
  | removed : PruneRes
  | stop (n : CacheTreeNode) : PruneRes

/-- `if (currentNode.children && !currentNode.children.size)
currentNode.children = null` (line 113). -/
def normChildren : Option (List (Key × CacheTreeNode)) → Option (List (Key × CacheTreeNode))
  | some m => if m.isEmpty then none else some m
  | none => none

/-- Lines 113–116 of the finalization callback, applied to one visited
node: null an empty child map, null a dead weak reference; if nothing is
left the node is removed from its parent, otherwise the walk breaks. -/
def pruneStep (live : Nat → Bool) (n : CacheTreeNode) : PruneRes :=
  let c := normChildren n.children
  let r := derefO live n.instanceRef
  if c.isNone && r.isNone then PruneRes.removed
  else PruneRes.stop (CacheTreeNode.mk c r)

/-- The finalization callback's walk (lines 97–118): descend along the
recorded path as far as it still exists, then process the visited nodes
deepest-first. A `removed` child is deleted from its parent's map before
the parent itself is processed; a surviving child breaks the walk, leaving
every ancestor untouched. -/
def pruneAux (live : Nat → Bool) : CacheTreeNode → List Key → PruneRes
  | n, [] => pruneStep live n
  | n, k :: rest =>
    match n.children with
    | none => pruneStep live n
    | some m =>
      match alookup m k with
      | none => pruneStep live n
      | some child =>
        match pruneAux live child rest with
        | PruneRes.stop c' => PruneRes.stop (CacheTreeNode.mk (some (aset m k c')) n.instanceRef)
        | PruneRes.removed => pruneStep live (CacheTreeNode.mk (some (adelete m k)) n.instanceRef)

/-- The whole finalization callback: the root has no parent, so when even
the root ends up empty it merely stays as an empty root node. -/
def pruneRoot (live : Nat → Bool) (t : CacheTreeNode) (path : List Key) : CacheTreeNode :=
  match pruneAux live t path with
  | PruneRes.stop t' => t'
  | PruneRes.removed => CacheTreeNode.mk none none

/-- A JavaScript value as supplied to the public accessors: a primitive, a
fresh array literal, a reference to an existing heap object, or a plain
(non-array, non-`ValueObject`) object — e.g. a record/mapping — which is
outside the `Value` universe the source recognizes. -/
inductive Value where
  | prim (p : Prim) : Value
  | arr (vs : List Value) : Value
  | objRef (id : Nat) : Value
  | plainObj (entries : List (String × Value)) : Value

/-- Read a stored path component back as the JS value it denotes (used when
an interned array is re-canonicalized: its elements are stored components).
A constructor component is a function, which `getByValue` rejects; it is
rendered as an unrecognized object. -/
def keyToValue : Key → Value
  | Key.prim p => Value.prim p
  | Key.obj i => Value.objRef i
  | Key.ctorK _ => Value.plainObj []

mutual

/-- `getByValue` (lines 166–183): primitives pass through, arrays are
interned via `getArrayByValue` (an already-interned array re-enters this
same branch through its stored elements), `ValueObject` instances pass
through, anything else throws the invalid-value `TypeError`. -/
def getByValueF (fuel : Nat) (live : Nat → Bool) (s : Store) (v : Value) :
    Except Err Key × Store :=
  match fuel, v with
  | 0, _ => (Except.error Err.noFuel, s)
  | _ + 1, Value.prim p => (Except.ok (Key.prim p), s)
  | fuel + 1, Value.arr vs =>
    match getArrayByValueF fuel live s vs with
    | (Except.ok i, s2) => (Except.ok (Key.obj i), s2)
    | (Except.error e, s2) => (Except.error e, s2)
  | fuel + 1, Value.objRef id =>
    match s.heap[id]? with
    | none => (Except.error Err.invalidValue, s)
    | some o =>
      if o.isArr then
        match getArrayByValueF fuel live s (o.elems.map keyToValue) with
        | (Except.ok i, s2) => (Except.ok (Key.obj i), s2)
        | (Except.error e, s2) => (Except.error e, s2)
      else if o.isVO then (Except.ok (Key.obj id), s)
      else (Except.error Err.invalidValue, s)
  | _ + 1, Value.plainObj _ => (Except.error Err.invalidValue, s)

/-- `getArrayByValue` (lines 161–164): canonicalize every element, then
intern the resulting array under the `Array` constructor; the factory
freezes and returns that very array, so an interned array's stored elements
are exactly its path components. -/
def getArrayByValueF (fuel : Nat) (live : Nat → Bool) (s : Store) (vs : List Value) :
    Except Err Nat × Store :=
  match fuel with
  | 0 => (Except.error Err.noFuel, s)
  | fuel + 1 =>
    match canonListF fuel live s vs with
    | (Except.ok ks, s2) =>
      let out := get live arrayCtor ks (Obj.mk arrayCtor true false ks) s2
      (out.result, out.store)
    | (Except.error e, s2) => (Except.error e, s2)

/-- `values.map((v) => this.getByValue(v))`: canonicalize a list of values
left to right, threading the store; the first thrown error propagates,
keeping the mutations made so far. -/
def canonListF (fuel : Nat) (live : Nat → Bool) (s : Store) (vs : List Value) :
    Except Err (List Key) × Store :=
  match fuel, vs with
  | _, [] => (Except.ok [], s)
  | 0, _ :: _ => (Except.error Err.noFuel, s)
  | fuel + 1, v :: rest =>
    match getByValueF fuel live s v with
    | (Except.ok k, s2) =>
      match canonListF fuel live s2 rest with
      | (Except.ok ks, s3) => (Except.ok (k :: ks), s3)
      | (Except.error e, s3) => (Except.error e, s3)
    | (Except.error e, s2) => (Except.error e, s2)

end

/-- `getObjectByValue` (lines 154–156): canonicalize the caller's component
list, then intern under the caller's constructor; on a miss the factory's
freshly built object `fObj` is frozen, checked against `ctor`, and stored. -/
def getObjectByValueF (fuel : Nat) (live : Nat → Bool) (ctor : Nat) (values : List Value)
    (fObj : Obj) (s : Store) : GetOut :=
  match canonListF fuel live s values with
  | (Except.ok ks, s2) => get live ctor ks fObj s2
  | (Except.error e, s2) => ⟨Except.error e, s2, false⟩

/-- Component-wise same-value-zero equality of two paths: the condition
under which they address the same storage node. -/
def pathSVZ : List Key → List Key → Bool
  | [], [] => true
  | a :: as, b :: bs => svzKey a b && pathSVZ as bs
  | _, _ => false

/-- The combined effect of `#get`'s miss path on the tree: walk/create the
path and store the reference at its terminal node, in one recursion. -/
def insertRef : CacheTreeNode → List Key → Nat → CacheTreeNode
  | CacheTreeNode.mk c _, [], i => CacheTreeNode.mk c (some i)
  | CacheTreeNode.mk c r, k :: rest, i =>
    let m := c.getD []
    let child := (alookup m k).getD (CacheTreeNode.mk none none)
    CacheTreeNode.mk (some (aset m k (insertRef child rest i))) r

/-- A node that carries information: at least one child or a (live or
recently live) instance reference. -/
def hasContent (n : CacheTreeNode) : Bool :=
  (match n.children with
   | some m => !m.isEmpty
   | none => false) || n.instanceRef.isSome

/-- The structural invariant of the claim: every reachable non-root node
carries information. -/
def InvTree (t : CacheTreeNode) : Prop :=
  ∀ q n, q ≠ [] → lookupNode t q = some n → hasContent n = true

/-- No two keys of one map are same-value-zero equal — automatic for a JS
`Map`, which can never hold two such keys. -/
def goodKeys : List Key → Bool
  | [] => true
  | k :: ks => ks.all (fun x => !svzKey k x) && goodKeys ks

mutual

/-- Every child map in the tree has pairwise non-equivalent keys (true of
any tree a JS `Map` can represent). -/
def goodTreeB : CacheTreeNode → Bool
  | CacheTreeNode.mk none _ => true
  | CacheTreeNode.mk (some m) _ => goodKeys (m.map Prod.fst) && goodChildrenB m

def goodChildrenB : List (Key × CacheTreeNode) → Bool
  | [] => true
  | (_, n) :: rest => goodTreeB n && goodChildrenB rest

end

mutual

/-- Every weak reference in the tree points below the given heap bound
(true of any store: references are created at allocation time). -/
def refsBelowB : CacheTreeNode → Nat → Bool
  | CacheTreeNode.mk c r, bound =>
    (match r with
     | some i => decide (i < bound)
     | none => true) &&
    (match c with
     | some m => refsBelowChildrenB m bound
     | none => true)

def refsBelowChildrenB : List (Key × CacheTreeNode) → Nat → Bool
  | [], _ => true
  | (_, n) :: rest, bound => refsBelowB n bound && refsBelowChildrenB rest bound

end

/-- The reclamation sequence of the claim: the finalization callback runs
for the recorded path, then the same path is interned again. -/
def pruneThenGet (live : Nat → Bool) (ctor : Nat) (values : List Key) (fObj : Obj)
    (s : Store) : GetOut :=
  get live ctor values fObj
    ⟨pruneRoot live s.tree (Key.ctorK ctor :: values), s.heap⟩

/-- The empty cache: the initial `#rootNode` and an empty heap. -/
def emptyStore : Store := ⟨CacheTreeNode.mk none none, []⟩

/-- Liveness map under which every object is still strongly referenced. -/
def allLive : Nat → Bool := fun _ => true

/-- Liveness map under which only object 0 has been collected. -/
def liveExceptZero : Nat → Bool := fun i => decide (i ≠ 0)

/-- A store holding two instances of constructor 1: object 0 at path
`[ctor 1, 5]` and object 1 at path `[ctor 1, 6]`. -/
def twoEntryStore : Store :=
  (get allLive 1 [Key.prim (Prim.num (JSNum.int 6))] (Obj.mk 1 false false [])
    (get allLive 1 [Key.prim (Prim.num (JSNum.int 5))] (Obj.mk 1 false false [])
      emptyStore).store).store

/-- A store holding one instance of constructor 7 interned at the path
`[ctor 7, NaN, +0]`. -/
def nanZeroStore : Store :=
  (get allLive 7 [Key.prim (Prim.num JSNum.nan), Key.prim (Prim.num (JSNum.int 0))]
    (Obj.mk 7 false false []) emptyStore).store

/-- Shorthand for an integer-number value. -/
def numV (i : Int) : Value := Value.prim (Prim.num (JSNum.int i))

/-- The store after interning `[[1,2], 3]` once from the empty cache:
object 0 is the inner array `[1,2]`, object 1 the outer array. -/
def nestedOnceStore : Store :=
  (getArrayByValueF 10 allLive emptyStore [Value.arr [numV 1, numV 2], numV 3]).2

/-- A component outside the recognized value universe: neither a
primitive, nor an array, nor a `ValueObject` instance — a plain object, or
a reference to an existing heap object that is neither an array nor a
`ValueObject` (e.g. an instance interned for a class that does not extend
`ValueObject`). -/
def invalidComponentB (heap : List Obj) : Value → Bool
  | Value.plainObj _ => true
  | Value.objRef id =>
    match heap[id]? with
    | none => false
    | some o => !o.isArr && !o.isVO
  | _ => false

/-- The root's child map entry for one constructor: the subtree holding
every path interned under that constructor. -/
def rootChildAt (t : CacheTreeNode) (k : Key) : Option CacheTreeNode :=
  match t.children with
  | none => none
  | some m => alookup m k

/-- A canonical path component (at recursion depth below `n`): a primitive,
a `ValueObject` instance, or a live interned array whose stored elements
are themselves canonical and which is cached at its own path — exactly the
components for which re-canonicalization is the identity. -/
def canonKeyB : Nat → (Nat → Bool) → Store → Key → Bool
  | _, _, _, Key.prim _ => true
  | _, _, _, Key.ctorK _ => false
  | n, live, s, Key.obj id =>
    match s.heap[id]? with
    | none => false
    | some o =>
      if o.isArr then
        match n with
        | 0 => false
        | m + 1 =>
          o.elems.all (fun k => canonKeyB m live s k) &&
          decide (cachedAt live s.tree (Key.ctorK arrayCtor :: o.elems) = some id)
      else o.isVO

/-- Every instance cached under an `Array` path is a canonical array (true
of every store the cache builds while all interned objects stay strongly
held). -/
def StoreOK (live : Nat → Bool) (s : Store) : Prop :=
  ∀ ks id, cachedAt live s.tree (Key.ctorK arrayCtor :: ks) = some id →
    ∃ n, canonKeyB n live s (Key.obj id) = true

theorem svzNum_refl (a : JSNum) : svzNum a a = true := by
  cases a <;> simp [svzNum]

theorem svzNum_symm {a b : JSNum} (h : svzNum a b = true) : svzNum b a = true := by
  cases a <;> cases b <;> simp_all [svzNum]

theorem svzNum_trans {a b c : JSNum} (h1 : svzNum a b = true) (h2 : svzNum b c = true) :
    svzNum a c = true := by
  cases a <;> cases b <;> cases c <;> simp_all [svzNum]

theorem svzPrim_refl (a : Prim) : svzPrim a a = true := by
  cases a <;> simp [svzPrim, svzNum_refl]

theorem svzPrim_symm {a b : Prim} (h : svzPrim a b = true) : svzPrim b a = true := by
  cases a <;> cases b <;> simp_all [svzPrim] <;> exact svzNum_symm h

theorem svzPrim_trans {a b c : Prim} (h1 : svzPrim a b = true) (h2 : svzPrim b c = true) :
    svzPrim a c = true := by
  cases a <;> cases b <;> cases c <;> simp_all [svzPrim]
  exact svzNum_trans h1 h2

theorem svzKey_refl (a : Key) : svzKey a a = true := by
  cases a <;> simp [svzKey, svzPrim_refl]

theorem svzKey_symm {a b : Key} (h : svzKey a b = true) : svzKey b a = true := by
  cases a <;> cases b <;> simp_all [svzKey] <;> exact svzPrim_symm h

theorem svzKey_trans {a b c : Key} (h1 : svzKey a b = true) (h2 : svzKey b c = true) :
    svzKey a c = true := by
  cases a <;> cases b <;> cases c <;> simp_all [svzKey]
  exact svzPrim_trans h1 h2

theorem alookup_aset_svz {α : Type} (m : List (Key × α)) {k k' : Key} (v : α)
    (h : svzKey k k' = true) : alookup (aset m k v) k' = some v := by
  induction m with
  | nil => simp [aset, alookup, h]
  | cons e rest ih =>
    obtain ⟨k0, v0⟩ := e
    by_cases h0 : svzKey k0 k = true
    · simp [aset, h0, alookup, svzKey_trans h0 h]
    · have h0' : ¬ svzKey k0 k' = true := fun hc => h0 (svzKey_trans hc (svzKey_symm h))
      simp [aset, h0, alookup, h0', ih]

theorem alookup_aset_ne {α : Type} (m : List (Key × α)) {k k' : Key} (v : α)
    (h : svzKey k k' = false) : alookup (aset m k v) k' = alookup m k' := by
  induction m with
  | nil => simp [aset, alookup, h]
  | cons e rest ih =>
    obtain ⟨k0, v0⟩ := e
    by_cases h0 : svzKey k0 k = true
    · have h0' : svzKey k0 k' = false := by
        by_contra hc
        simp only [Bool.not_eq_false] at hc
        have := svzKey_trans (svzKey_symm h0) hc
        simp [h] at this
      simp [aset, h0, alookup, h0']
    · simp [aset, h0, alookup, ih]

theorem alookup_adelete_ne {α : Type} (m : List (Key × α)) {k k' : Key}
    (h : svzKey k k' = false) : alookup (adelete m k) k' = alookup m k' := by
  induction m with
  | nil => simp [adelete]
  | cons e rest ih =>
    obtain ⟨k0, v0⟩ := e
    by_cases h0 : svzKey k0 k = true
    · have h0' : svzKey k0 k' = false := by
        by_contra hc
        simp only [Bool.not_eq_false] at hc
        have := svzKey_trans (svzKey_symm h0) hc
        simp [h] at this
      simp [adelete, h0, alookup, h0']
    · simp [adelete, h0, alookup, ih]

@[simp] theorem CacheTreeNode.children_mk (c : Option (List (Key × CacheTreeNode)))
    (r : Option Nat) : (CacheTreeNode.mk c r).children = c := rfl

@[simp] theorem CacheTreeNode.instanceRef_mk (c : Option (List (Key × CacheTreeNode)))
    (r : Option Nat) : (CacheTreeNode.mk c r).instanceRef = r := rfl

theorem pathSVZ_refl (p : List Key) : pathSVZ p p = true := by
  induction p with
  | nil => rfl
  | cons a as ih => simp [pathSVZ, svzKey_refl, ih]

theorem alookup_congr {α : Type} (m : List (Key × α)) {k k' : Key}
    (h : svzKey k k' = true) : alookup m k = alookup m k' := by
  induction m with
  | nil => rfl
  | cons e rest ih =>
    obtain ⟨k0, v0⟩ := e
    by_cases h0 : svzKey k0 k = true
    · simp [alookup, h0, svzKey_trans h0 h]
    · have h0' : svzKey k0 k' = false := by
        by_contra hc
        simp only [Bool.not_eq_false] at hc
        exact h0 (svzKey_trans hc (svzKey_symm h))
      simp only [Bool.not_eq_true] at h0
      simp [alookup, h0, h0', ih]

theorem aset_self {α : Type} {m : List (Key × α)} {k : Key} {v : α}
    (h : alookup m k = some v) : aset m k v = m := by
  induction m with
  | nil => simp [alookup] at h
  | cons e rest ih =>
    obtain ⟨k0, v0⟩ := e
    by_cases h0 : svzKey k0 k = true
    · simp [alookup, h0] at h
      simp [aset, h0, h]
    · simp [alookup, h0] at h
      simp [aset, h0, ih h]

theorem aset_aset {α : Type} (m : List (Key × α)) (k : Key) (v w : α) :
    aset (aset m k v) k w = aset m k w := by
  induction m with
  | nil => simp [aset, svzKey_refl]
  | cons e rest ih =>
    obtain ⟨k0, v0⟩ := e
    by_cases h0 : svzKey k0 k = true
    · simp [aset, h0]
    · simp [aset, h0, ih]

theorem lookupNode_empty (q : List Key) (hq : q ≠ []) :
    lookupNode (CacheTreeNode.mk none none) q = none := by
  cases q with
  | nil => exact absurd rfl hq
  | cons k rest => simp [lookupNode]

theorem pathInst_empty (q : List Key) :
    pathInst (CacheTreeNode.mk none none) q = none := by
  cases q with
  | nil => rfl
  | cons k rest => simp [pathInst, lookupNode]

theorem cachedAt_empty (live : Nat → Bool) (q : List Key) :
    cachedAt live (CacheTreeNode.mk none none) q = none := by
  cases q with
  | nil => simp [cachedAt, lookupNode, CacheTreeNode.instanceRef, derefO]
  | cons k rest => simp [cachedAt, lookupNode]

/-- Lookup only depends on the same-value-zero class of the path. -/
theorem lookupNode_congr (t : CacheTreeNode) {p q : List Key}
    (h : pathSVZ p q = true) : lookupNode t p = lookupNode t q := by
  induction p generalizing t q with
  | nil => cases q with
    | nil => rfl
    | cons b bs => simp [pathSVZ] at h
  | cons a as ih =>
    cases q with
    | nil => simp [pathSVZ] at h
    | cons b bs =>
      simp only [pathSVZ, Bool.and_eq_true] at h
      obtain ⟨t_c, t_r⟩ := t
      cases t_c with
      | none => simp [lookupNode]
      | some m =>
        simp only [lookupNode, alookup_congr m h.1]
        cases alookup m b with
        | none => rfl
        | some child => exact ih child h.2

theorem pathInst_congr (t : CacheTreeNode) {p q : List Key}
    (h : pathSVZ p q = true) : pathInst t p = pathInst t q := by
  simp [pathInst, lookupNode_congr t h]

theorem cachedAt_congr (live : Nat → Bool) (t : CacheTreeNode) {p q : List Key}
    (h : pathSVZ p q = true) : cachedAt live t p = cachedAt live t q := by
  simp [cachedAt, lookupNode_congr t h]

/-- When the whole path is already present, the creating walk of `#get`
changes nothing (in the source it only performs `Map.get`s). -/
theorem walkEnsure_of_lookup {t : CacheTreeNode} {p : List Key} {n : CacheTreeNode}
    (h : lookupNode t p = some n) : walkEnsure t p = t := by
  induction p generalizing t with
  | nil => simp [walkEnsure]
  | cons k rest ih =>
    obtain ⟨c, r⟩ := t
    cases c with
    | none => simp [lookupNode] at h
    | some m =>
      simp only [lookupNode] at h
      cases hc : alookup m k with
      | none => simp [hc] at h
      | some child =>
        rw [hc] at h
        simp only [walkEnsure, Option.getD_some, hc]
        rw [ih h, aset_self hc]

/-- The node the creating walk leaves at the end of the walked path: the
pre-existing node if the path was present, a fresh empty node otherwise. -/
theorem lookupNode_walkEnsure_self (t : CacheTreeNode) (p : List Key) :
    lookupNode (walkEnsure t p) p =
      some ((lookupNode t p).getD (CacheTreeNode.mk none none)) := by
  induction p generalizing t with
  | nil => simp [walkEnsure, lookupNode]
  | cons k rest ih =>
    obtain ⟨c, r⟩ := t
    cases c with
    | none =>
      simp only [walkEnsure, Option.getD_none, lookupNode,
        alookup_aset_svz _ _ (svzKey_refl k)]
      rw [ih]
      simp [alookup, lookupNode]
      cases rest with
      | nil => simp [lookupNode]
      | cons k2 r2 => simp [lookupNode]
    | some m =>
      simp only [walkEnsure, Option.getD_some, lookupNode,
        alookup_aset_svz _ _ (svzKey_refl k)]
      rw [ih]
      cases hc : alookup m k with
      | none =>
        simp only [Option.getD_none]
        cases rest with
        | nil => simp [lookupNode]
        | cons k2 r2 => simp [lookupNode]
      | some child => simp

theorem cachedAt_walkEnsure_self (live : Nat → Bool) (t : CacheTreeNode) (p : List Key) :
    cachedAt live (walkEnsure t p) p = cachedAt live t p := by
  simp only [cachedAt, lookupNode_walkEnsure_self]
  cases h : lookupNode t p with
  | none =>
    simp [CacheTreeNode.instanceRef, derefO]
  | some n => simp

theorem pathInst_walkEnsure_self (t : CacheTreeNode) (p : List Key) :
    pathInst (walkEnsure t p) p = pathInst t p := by
  simp only [pathInst, lookupNode_walkEnsure_self]
  cases h : lookupNode t p with
  | none => simp [CacheTreeNode.instanceRef]
  | some n => simp

/-- The creating walk stores no instance reference: any reference found
afterwards was already there. -/
theorem pathInst_walkEnsure_some {t : CacheTreeNode} {p q : List Key} {i : Nat}
    (h : pathInst (walkEnsure t p) q = some i) : pathInst t q = some i := by
  induction p generalizing t q with
  | nil => simpa [walkEnsure] using h
  | cons k rest ih =>
    obtain ⟨c, r⟩ := t
    cases q with
    | nil => simpa [walkEnsure, pathInst, lookupNode] using h
    | cons k1 q1 =>
      simp only [walkEnsure, pathInst, lookupNode] at h ⊢
      by_cases hsvz : svzKey k k1 = true
      · rw [alookup_aset_svz _ _ hsvz] at h
        have h' : pathInst (walkEnsure ((alookup (c.getD []) k).getD
            (CacheTreeNode.mk none none)) rest) q1 = some i := h
        have h2 := ih h'
        cases hc : c with
        | none =>
          subst hc
          simp only [Option.getD_none, alookup] at h2
          rw [pathInst_empty] at h2
          exact absurd h2 (by simp)
        | some m =>
          subst hc
          simp only [Option.getD_some] at h2 ⊢
          cases hl : alookup m k with
          | none =>
            rw [hl] at h2
            simp only [Option.getD_none] at h2
            rw [pathInst_empty] at h2
            exact absurd h2 (by simp)
          | some child =>
            rw [hl] at h2
            simp only [Option.getD_some] at h2
            rw [← alookup_congr m hsvz, hl]
            exact h2
      · have hsvz' : svzKey k k1 = false := by simpa using hsvz
        rw [alookup_aset_ne _ _ hsvz'] at h
        cases hc : c with
        | none =>
          subst hc
          simp only [Option.getD_none, alookup] at h
          simp at h
        | some m =>
          subst hc
          simp only [Option.getD_some] at h ⊢
          exact h

theorem setRefAt_walkEnsure (t : CacheTreeNode) (p : List Key) (i : Nat) :
    setRefAt (walkEnsure t p) p i = insertRef t p i := by
  induction p generalizing t with
  | nil => obtain ⟨c, r⟩ := t; simp [walkEnsure, setRefAt, insertRef]
  | cons k rest ih =>
    obtain ⟨c, r⟩ := t
    simp only [walkEnsure, setRefAt, insertRef, alookup_aset_svz _ _ (svzKey_refl k),
      aset_aset, ih]

/-- What `#get`'s miss path does to every lookup: the same-value-zero class
of the inserted path now carries the new reference, every other path is
untouched. -/
theorem pathInst_insertRef (t : CacheTreeNode) (p q : List Key) (i : Nat) :
    pathInst (insertRef t p i) q =
      if pathSVZ p q = true then some i else pathInst t q := by
  induction p generalizing t q with
  | nil =>
    obtain ⟨c, r⟩ := t
    cases q with
    | nil => simp [insertRef, pathSVZ, pathInst, lookupNode]
    | cons k1 q1 =>
      simp only [insertRef, pathSVZ]
      simp only [pathInst, lookupNode]
      rfl
  | cons k pr ih =>
    obtain ⟨c, r⟩ := t
    cases q with
    | nil => simp [insertRef, pathSVZ, pathInst, lookupNode]
    | cons k1 q1 =>
      by_cases hsvz : svzKey k k1 = true
      · simp only [insertRef, pathInst, lookupNode, alookup_aset_svz _ _ hsvz]
        have := ih ((alookup (c.getD []) k).getD (CacheTreeNode.mk none none)) q1
        simp only [pathInst] at this
        rw [this]
        by_cases hp : pathSVZ pr q1 = true
        · simp [pathSVZ, hsvz, hp]
        · simp only [pathSVZ, hsvz, Bool.true_and, hp, if_false]
          cases hc : c with
          | none =>
            simp only [Option.getD_none, alookup]
            cases q1 with
            | nil => simp [lookupNode, CacheTreeNode.instanceRef]
            | cons a b => simp [lookupNode]
          | some m =>
            simp only [Option.getD_some]
            rw [← alookup_congr m hsvz]
            cases hl : alookup m k with
            | none =>
              simp only [Option.getD_none]
              cases q1 with
              | nil => simp [lookupNode, CacheTreeNode.instanceRef]
              | cons a b => simp [lookupNode]
            | some child => simp [pathInst]
      · have hsvz' : svzKey k k1 = false := by simpa using hsvz
        simp only [insertRef, pathInst, lookupNode, alookup_aset_ne _ _ hsvz']
        have hps : pathSVZ (k :: pr) (k1 :: q1) = false := by
          simp [pathSVZ, hsvz']
        rw [hps]
        simp only [Bool.false_eq_true, if_false]
        cases hc : c with
        | none => simp [alookup, pathInst]
        | some m => simp [pathInst]

theorem aset_ne_nil {α : Type} (m : List (Key × α)) (k : Key) (v : α) :
    aset m k v ≠ [] := by
  cases m with
  | nil => simp [aset]
  | cons e rest =>
    obtain ⟨k0, v0⟩ := e
    by_cases h0 : svzKey k0 k = true <;> simp [aset, h0]

theorem hasContent_insertRef (t : CacheTreeNode) (p : List Key) (i : Nat) :
    hasContent (insertRef t p i) = true := by
  cases p with
  | nil => obtain ⟨c, r⟩ := t; simp [insertRef, hasContent]
  | cons k rest =>
    obtain ⟨c, r⟩ := t
    simp [insertRef, hasContent, List.isEmpty_eq_true, aset_ne_nil]

theorem InvTree_insertRef {t : CacheTreeNode} (p : List Key) (i : Nat)
    (hInv : InvTree t) : InvTree (insertRef t p i) := by
  induction p generalizing t with
  | nil =>
    obtain ⟨c, r⟩ := t
    intro q n hq hlook
    cases q with
    | nil => exact absurd rfl hq
    | cons k1 q1 =>
      exact hInv (k1 :: q1) n hq hlook
  | cons k pr ih =>
    obtain ⟨c, r⟩ := t
    intro q n hq hlook
    cases q with
    | nil => exact absurd rfl hq
    | cons k1 q1 =>
      simp only [insertRef, lookupNode] at hlook
      by_cases hsvz : svzKey k k1 = true
      · rw [alookup_aset_svz _ _ hsvz] at hlook
        cases q1 with
        | nil =>
          simp only [lookupNode, Option.some_inj] at hlook
          rw [← hlook]
          exact hasContent_insertRef _ pr i
        | cons k2 q2 =>
          set child := (alookup (c.getD []) k).getD (CacheTreeNode.mk none none) with hchild
          have hInvChild : InvTree child := by
            intro q' n' hq' hl'
            cases hc : c with
            | none =>
              rw [hc] at hchild
              simp only [Option.getD_none, alookup] at hchild
              rw [hchild] at hl'
              rw [lookupNode_empty q' hq'] at hl'
              exact absurd hl' (by simp)
            | some m =>
              rw [hc] at hchild
              simp only [Option.getD_some] at hchild
              cases hl0 : alookup m k with
              | none =>
                rw [hl0] at hchild
                simp only [Option.getD_none] at hchild
                rw [hchild] at hl'
                rw [lookupNode_empty q' hq'] at hl'
                exact absurd hl' (by simp)
              | some child0 =>
                rw [hl0] at hchild
                simp only [Option.getD_some] at hchild
                refine hInv (k :: q') n' (by simp) ?_
                rw [hchild] at hl'
                simp [lookupNode, hc, hl0, hl']
          exact ih hInvChild (k2 :: q2) n (by simp) hlook
      · have hsvz' : svzKey k k1 = false := by simpa using hsvz
        rw [alookup_aset_ne _ _ hsvz'] at hlook
        cases hc : c with
        | none =>
          rw [hc] at hlook
          simp only [Option.getD_none, alookup] at hlook
          exact absurd hlook (by simp)
        | some m =>
          rw [hc] at hlook
          simp only [Option.getD_some] at hlook
          cases hl0 : alookup m k1 with
          | none => rw [hl0] at hlook; exact absurd hlook (by simp)
          | some child1 =>
            rw [hl0] at hlook
            refine hInv (k1 :: q1) n hq ?_
            simp only [lookupNode, hc, hl0]
            simpa using hlook

theorem alookup_none_of_all_ne {m : List (Key × CacheTreeNode)} {k1 : Key}
    (h : ∀ e ∈ m, svzKey e.1 k1 = false) : alookup m k1 = none := by
  induction m with
  | nil => rfl
  | cons e rest ih =>
    obtain ⟨k0, v0⟩ := e
    have h0 := h (k0, v0) (by simp)
    simp only [alookup, h0]
    simp only [Bool.false_eq_true, if_false]
    exact ih fun e he => h e (by simp [he])

/-- In a duplicate-free map, deleting a key's entry leaves nothing
equivalent to it. -/
theorem alookup_adelete_svz_good {m : List (Key × CacheTreeNode)} {k k1 : Key}
    (hg : goodKeys (m.map Prod.fst) = true) (h : svzKey k k1 = true) :
    alookup (adelete m k) k1 = none := by
  induction m with
  | nil => rfl
  | cons e rest ih =>
    obtain ⟨k0, v0⟩ := e
    simp only [List.map_cons, goodKeys, Bool.and_eq_true, List.all_eq_true] at hg
    obtain ⟨hall, hrest⟩ := hg
    by_cases h0 : svzKey k0 k = true
    · simp only [adelete, h0, if_true]
      refine alookup_none_of_all_ne fun e he => ?_
      by_contra hc
      simp only [Bool.not_eq_false] at hc
      have h1 : svzKey e.1 k0 = true :=
        svzKey_trans hc (svzKey_trans (svzKey_symm h) (svzKey_symm h0))
      have := hall e.1 (List.mem_map_of_mem Prod.fst he)
      simp [svzKey_symm h1] at this
    · have h0' : svzKey k0 k1 = false := by
        by_contra hc
        simp only [Bool.not_eq_false] at hc
        exact h0 (svzKey_trans hc (svzKey_symm h))
      simp only [adelete, h0, if_false, alookup, h0']
      simp only [Bool.false_eq_true, if_false]
      exact ih hrest

theorem goodTreeB_children {m : List (Key × CacheTreeNode)} {r : Option Nat}
    (h : goodTreeB (CacheTreeNode.mk (some m) r) = true) :
    goodKeys (m.map Prod.fst) = true ∧ goodChildrenB m = true := by
  simpa [goodTreeB, Bool.and_eq_true] using h

theorem goodChildrenB_lookup {m : List (Key × CacheTreeNode)} {k : Key}
    {child : CacheTreeNode} (h : goodChildrenB m = true)
    (hl : alookup m k = some child) : goodTreeB child = true := by
  induction m with
  | nil => simp [alookup] at hl
  | cons e rest ih =>
    obtain ⟨k0, v0⟩ := e
    simp only [goodChildrenB, Bool.and_eq_true] at h
    by_cases h0 : svzKey k0 k = true
    · simp only [alookup, h0, if_true, Option.some_inj] at hl
      rw [← hl]; exact h.1
    · simp only [alookup, h0, if_false] at hl
      simp only [Bool.false_eq_true] at hl
      exact ih h.2 (by simpa using hl)

theorem pruneStep_removed_no_live {live : Nat → Bool} {n : CacheTreeNode}
    (h : pruneStep live n = PruneRes.removed) :
    ∀ q i, pathInst n q = some i → live i = true → False := by
  intro q i hq hlive
  by_cases hcond : ((normChildren n.children).isNone && (derefO live n.instanceRef).isNone) = true
  · simp only [Bool.and_eq_true, Option.isNone_iff_eq_none] at hcond
    obtain ⟨hc, hr⟩ := hcond
    cases q with
    | nil =>
      simp only [pathInst, lookupNode, Option.some_bind] at hq
      rw [hq] at hr
      simp [derefO, hlive] at hr
    | cons k q1 =>
      obtain ⟨c, r⟩ := n
      cases c with
      | none => simp [pathInst, lookupNode] at hq
      | some m =>
        simp only [pathInst, lookupNode] at hq
        cases hl : alookup m k with
        | none => simp [hl] at hq
        | some child =>
          have hm : m ≠ [] := by
            intro he; rw [he] at hl; simp [alookup] at hl
          simp only [CacheTreeNode.children_mk, normChildren] at hc
          rw [if_neg (by simpa [List.isEmpty_iff] using hm)] at hc
          exact absurd hc (by simp)
  · simp only [pruneStep, if_neg hcond] at h
    exact absurd h (by simp)

theorem pruneStep_stop_shape {live : Nat → Bool} {n n' : CacheTreeNode}
    (h : pruneStep live n = PruneRes.stop n') :
    n' = CacheTreeNode.mk (normChildren n.children) (derefO live n.instanceRef) := by
  by_cases hcond : ((normChildren n.children).isNone && (derefO live n.instanceRef).isNone) = true
  · simp [pruneStep, hcond] at h
  · simp only [pruneStep, if_neg hcond, PruneRes.stop.injEq] at h
    exact h.symm

theorem pruneStep_stop_preserves {live : Nat → Bool} {n n' : CacheTreeNode}
    (h : pruneStep live n = PruneRes.stop n') :
    ∀ q i, pathInst n q = some i → live i = true → pathInst n' q = some i := by
  intro q i hq hlive
  rw [pruneStep_stop_shape h]
  obtain ⟨c, r⟩ := n
  cases q with
  | nil =>
    simp only [pathInst, lookupNode, Option.some_bind, CacheTreeNode.instanceRef_mk] at hq ⊢
    simp [CacheTreeNode.instanceRef, hq, derefO, hlive]
  | cons k q1 =>
    cases c with
    | none => simp [pathInst, lookupNode] at hq
    | some m =>
      simp only [pathInst, lookupNode] at hq
      cases hl : alookup m k with
      | none => simp [hl] at hq
      | some child =>
        have hm : m ≠ [] := by
          intro he; rw [he] at hl; simp [alookup] at hl
        simp only [pathInst, CacheTreeNode.children_mk, normChildren, lookupNode]
        rw [if_neg (by simpa [List.isEmpty_iff] using hm)]
        simpa [hl] using hq

/-- The pruning walk never destroys live content: an instance that is still
alive stays recorded at its path, wherever the dead path pointed. -/
theorem pruneAux_preserves (live : Nat → Bool) (p : List Key) :
    ∀ t : CacheTreeNode,
      (pruneAux live t p = PruneRes.removed →
        ∀ q i, pathInst t q = some i → live i = true → False) ∧
      (∀ t', pruneAux live t p = PruneRes.stop t' →
        ∀ q i, pathInst t q = some i → live i = true → pathInst t' q = some i) := by
  induction p with
  | nil =>
    intro t
    exact ⟨fun h => pruneStep_removed_no_live h,
           fun t' h => pruneStep_stop_preserves h⟩
  | cons k rest ih =>
    intro t
    obtain ⟨c, r0⟩ := t
    cases c with
    | none =>
      constructor
      · intro h
        simp only [pruneAux, CacheTreeNode.children_mk] at h
        exact pruneStep_removed_no_live h
      · intro t' h
        simp only [pruneAux, CacheTreeNode.children_mk] at h
        exact pruneStep_stop_preserves h
    | some m =>
      cases hl : alookup m k with
      | none =>
        constructor
        · intro h
          simp only [pruneAux, CacheTreeNode.children_mk, hl] at h
          exact pruneStep_removed_no_live h
        · intro t' h
          simp only [pruneAux, CacheTreeNode.children_mk, hl] at h
          exact pruneStep_stop_preserves h
      | some child =>
        have ihc := ih child
        cases hrec : pruneAux live child rest with
        | stop c' =>
          constructor
          · intro h
            simp [pruneAux, CacheTreeNode.children_mk, hl, hrec] at h
          · intro t' h
            simp only [pruneAux, CacheTreeNode.children_mk, hl, hrec,
              PruneRes.stop.injEq] at h
            subst h
            intro q i hq hlive
            cases q with
            | nil => simpa [pathInst, lookupNode, CacheTreeNode.instanceRef] using hq
            | cons k1 q1 =>
              simp only [pathInst, lookupNode] at hq ⊢
              by_cases hsvz : svzKey k k1 = true
              · have hcc : alookup m k1 = some child := by
                  rw [← alookup_congr m hsvz]; exact hl
                rw [hcc] at hq
                rw [alookup_aset_svz _ _ hsvz]
                have := ihc.2 c' hrec q1 i (by simpa [pathInst] using hq) hlive
                simpa [pathInst] using this
              · have hsvz' : svzKey k k1 = false := by simpa using hsvz
                rw [alookup_aset_ne _ _ hsvz']
                exact hq
        | removed =>
          have htrans : ∀ q i, pathInst (CacheTreeNode.mk (some m) r0) q = some i →
              live i = true → pathInst (CacheTreeNode.mk (some (adelete m k)) r0) q = some i := by
            intro q i hq hlive
            cases q with
            | nil => simpa [pathInst, lookupNode, CacheTreeNode.instanceRef] using hq
            | cons k1 q1 =>
              simp only [pathInst, lookupNode] at hq ⊢
              by_cases hsvz : svzKey k k1 = true
              · have hcc : alookup m k1 = some child := by
                  rw [← alookup_congr m hsvz]; exact hl
                rw [hcc] at hq
                exact (ihc.1 hrec q1 i (by simpa [pathInst] using hq) hlive).elim
              · have hsvz' : svzKey k k1 = false := by simpa using hsvz
                rw [alookup_adelete_ne _ hsvz']
                exact hq
          constructor
          · intro h q i hq hlive
            simp only [pruneAux, CacheTreeNode.children_mk, hl, hrec] at h
            exact pruneStep_removed_no_live h q i (htrans q i hq hlive) hlive
          · intro t' h q i hq hlive
            simp only [pruneAux, CacheTreeNode.children_mk, hl, hrec] at h
            exact pruneStep_stop_preserves h q i (htrans q i hq hlive) hlive

theorem pruneRoot_preserves (live : Nat → Bool) (t : CacheTreeNode) (p : List Key) :
    ∀ q i, pathInst t q = some i → live i = true →
      pathInst (pruneRoot live t p) q = some i := by
  intro q i hq hlive
  unfold pruneRoot
  cases h : pruneAux live t p with
  | removed => exact ((pruneAux_preserves live p t).1 h q i hq hlive).elim
  | stop t' => exact (pruneAux_preserves live p t).2 t' h q i hq hlive

/-- After pruning a recorded path whose instance is dead, nothing is
recorded at that path any more (in a duplicate-free tree). -/
theorem pruneAux_kills (live : Nat → Bool) (p : List Key) :
    ∀ t : CacheTreeNode, goodTreeB t = true →
      ∀ i, pathInst t p = some i → live i = false →
      ∀ t', pruneAux live t p = PruneRes.stop t' → pathInst t' p = none := by
  induction p with
  | nil =>
    intro t hg i hi hlive t' h
    obtain ⟨c, r⟩ := t
    rw [pruneStep_stop_shape h]
    simp only [pathInst, lookupNode, Option.some_bind, CacheTreeNode.instanceRef_mk] at hi ⊢
    simp [CacheTreeNode.instanceRef, hi, derefO, hlive]
  | cons k rest ih =>
    intro t hg i hi hlive t' h
    obtain ⟨c, r0⟩ := t
    cases c with
    | none => simp [pathInst, lookupNode] at hi
    | some m =>
      simp only [pathInst, lookupNode] at hi
      cases hl : alookup m k with
      | none => simp [hl] at hi
      | some child =>
        rw [hl] at hi
        obtain ⟨hgk, hgc⟩ := goodTreeB_children hg
        have hgchild := goodChildrenB_lookup hgc hl
        cases hrec : pruneAux live child rest with
        | stop c' =>
          simp only [pruneAux, CacheTreeNode.children_mk, hl, hrec,
            PruneRes.stop.injEq] at h
          subst h
          simp only [pathInst, lookupNode, alookup_aset_svz _ _ (svzKey_refl k)]
          have := ih child hgchild i (by simpa [pathInst] using hi) hlive c' hrec
          simpa [pathInst] using this
        | removed =>
          simp only [pruneAux, CacheTreeNode.children_mk, hl, hrec] at h
          rw [pruneStep_stop_shape h]
          by_cases he : (adelete m k).isEmpty = true
          · simp [pathInst, CacheTreeNode.children, normChildren, he, lookupNode]
          · simp [pathInst, CacheTreeNode.children, normChildren, he, lookupNode,
              alookup_adelete_svz_good hgk (svzKey_refl k)]

theorem pruneRoot_kills {live : Nat → Bool} {t : CacheTreeNode} {p : List Key} {i : Nat}
    (hg : goodTreeB t = true) (hi : pathInst t p = some i) (hlive : live i = false) :
    pathInst (pruneRoot live t p) p = none := by
  unfold pruneRoot
  cases h : pruneAux live t p with
  | removed => exact pathInst_empty p
  | stop t' => exact pruneAux_kills live p t hg i hi hlive t' h

theorem cachedAt_some_pathInst {live : Nat → Bool} {t : CacheTreeNode} {p : List Key}
    {i : Nat} (h : cachedAt live t p = some i) :
    pathInst t p = some i ∧ live i = true := by
  simp only [cachedAt, pathInst] at h ⊢
  cases hl : lookupNode t p with
  | none => simp [hl] at h
  | some n =>
    rw [hl] at h
    simp only [Option.some_bind] at h ⊢
    cases hr : n.instanceRef with
    | none => simp [hr, derefO] at h
    | some j =>
      rw [hr] at h
      simp only [derefO] at h
      by_cases hlj : live j = true
      · rw [if_pos hlj] at h
        cases h
        exact ⟨rfl, hlj⟩
      · rw [if_neg hlj] at h
        exact absurd h (by simp)

theorem pathInst_live_cachedAt {live : Nat → Bool} {t : CacheTreeNode} {p : List Key}
    {i : Nat} (h : pathInst t p = some i) (hl : live i = true) :
    cachedAt live t p = some i := by
  simp only [pathInst] at h
  simp only [cachedAt]
  cases hk : lookupNode t p with
  | none => simp [hk] at h
  | some n =>
    rw [hk] at h
    simp only [Option.some_bind] at h ⊢
    simp [h, derefO, hl]

/-- `#get` on a live hit: the cached instance is returned, the factory is
not called, and the whole store is untouched. -/
theorem get_eq_hit {live : Nat → Bool} {ctor : Nat} {values : List Key} {fObj : Obj}
    {s : Store} {i : Nat}
    (h : cachedAt live s.tree (Key.ctorK ctor :: values) = some i) :
    get live ctor values fObj s = ⟨Except.ok i, s, false⟩ := by
  obtain ⟨hpi, hlive⟩ := cachedAt_some_pathInst h
  have hlook : ∃ n, lookupNode s.tree (Key.ctorK ctor :: values) = some n := by
    simp only [pathInst] at hpi
    cases hl : lookupNode s.tree (Key.ctorK ctor :: values) with
    | none => simp [hl] at hpi
    | some n => exact ⟨n, rfl⟩
  obtain ⟨n, hn⟩ := hlook
  simp only [get, walkEnsure_of_lookup hn, h]

/-- `#get` on a miss with a well-typed factory: the fresh instance is
allocated at the next heap index, stored at the path's terminal node, and
returned. -/
theorem get_eq_miss_ok {live : Nat → Bool} {ctor : Nat} {values : List Key} {fObj : Obj}
    {s : Store}
    (h : cachedAt live s.tree (Key.ctorK ctor :: values) = none)
    (hc : fObj.ctor = ctor) :
    get live ctor values fObj s =
      ⟨Except.ok s.heap.length,
       ⟨insertRef s.tree (Key.ctorK ctor :: values) s.heap.length, s.heap ++ [fObj]⟩,
       true⟩ := by
  have hw : cachedAt live (walkEnsure s.tree (Key.ctorK ctor :: values))
      (Key.ctorK ctor :: values) = none := by
    rw [cachedAt_walkEnsure_self]; exact h
  simp only [get, hw, hc, if_pos, setRefAt_walkEnsure]

/-- `#get` on a miss with an ill-typed factory: the `TypeError` is thrown,
the freshly created instance is not stored anywhere, and the tree keeps
only the (empty) nodes created by the walk. -/
theorem get_eq_miss_err {live : Nat → Bool} {ctor : Nat} {values : List Key} {fObj : Obj}
    {s : Store}
    (h : cachedAt live s.tree (Key.ctorK ctor :: values) = none)
    (hc : fObj.ctor ≠ ctor) :
    get live ctor values fObj s =
      ⟨Except.error Err.factoryTypeMismatch,
       ⟨walkEnsure s.tree (Key.ctorK ctor :: values), s.heap ++ [fObj]⟩,
       true⟩ := by
  have hw : cachedAt live (walkEnsure s.tree (Key.ctorK ctor :: values))
      (Key.ctorK ctor :: values) = none := by
    rw [cachedAt_walkEnsure_self]; exact h
  simp [get, hw, hc]

/-- Any `#get` whose factory constructor matches the requested one (in
particular every internal array interning) preserves the structural
invariant, hit or miss. -/
theorem InvTree_get {live : Nat → Bool} {ctor : Nat} {values : List Key} {fObj : Obj}
    {s : Store} (hInv : InvTree s.tree) (hc : fObj.ctor = ctor) :
    InvTree (get live ctor values fObj s).store.tree := by
  cases h : cachedAt live s.tree (Key.ctorK ctor :: values) with
  | some i => rw [get_eq_hit h]; exact hInv
  | none => rw [get_eq_miss_ok h hc]; exact InvTree_insertRef _ _ hInv

/-- A successful `#get` preserves the structural invariant. -/
theorem InvTree_get_ok {live : Nat → Bool} {ctor : Nat} {values : List Key} {fObj : Obj}
    {s : Store} {i : Nat} (hInv : InvTree s.tree)
    (hok : (get live ctor values fObj s).result = Except.ok i) :
    InvTree (get live ctor values fObj s).store.tree := by
  cases h : cachedAt live s.tree (Key.ctorK ctor :: values) with
  | some j => rw [get_eq_hit h]; exact hInv
  | none =>
    by_cases hc : fObj.ctor = ctor
    · rw [get_eq_miss_ok h hc]; exact InvTree_insertRef _ _ hInv
    · rw [get_eq_miss_err h hc] at hok
      exact absurd hok (by simp)

/-- The canonicalizer preserves the structural invariant: every tree
mutation it performs is a complete array interning. -/
theorem InvTree_canon (fuel : Nat) :
    (∀ live s v, InvTree s.tree → InvTree (getByValueF fuel live s v).2.tree) ∧
    (∀ live s vs, InvTree s.tree → InvTree (canonListF fuel live s vs).2.tree) ∧
    (∀ live s vs, InvTree s.tree → InvTree (getArrayByValueF fuel live s vs).2.tree) := by
  induction fuel with
  | zero =>
    refine ⟨fun live s v hInv => ?_, fun live s vs hInv => ?_, fun live s vs hInv => ?_⟩
    · cases v <;> simpa [getByValueF] using hInv
    · cases vs <;> simpa [canonListF] using hInv
    · simpa [getArrayByValueF] using hInv
  | succ f ihf =>
    obtain ⟨ihv, ihl, iha⟩ := ihf
    refine ⟨fun live s v hInv => ?_, fun live s vs hInv => ?_, fun live s vs hInv => ?_⟩
    · cases v with
      | prim p => simpa [getByValueF] using hInv
      | arr vs =>
        have h := iha live s vs hInv
        simp only [getByValueF]
        cases hh : getArrayByValueF f live s vs with
        | mk res s2 =>
          rw [hh] at h
          cases res <;> simpa using h
      | objRef id =>
        simp only [getByValueF]
        cases hh : s.heap[id]? with
        | none => simpa using hInv
        | some o =>
          by_cases ha : o.isArr = true
          · have h := iha live s (o.elems.map keyToValue) hInv
            simp only [ha, if_true]
            cases hh2 : getArrayByValueF f live s (List.map keyToValue o.elems) with
            | mk res s2 =>
              rw [hh2] at h
              cases res <;> simpa using h
          · by_cases hv : o.isVO = true <;> simp [ha, hv] <;> exact hInv
      | plainObj es => simpa [getByValueF] using hInv
    · cases vs with
      | nil => simpa [canonListF] using hInv
      | cons v rest =>
        have h1 := ihv live s v hInv
        rcases hh : getByValueF f live s v with ⟨res, s2⟩
        rw [hh] at h1
        cases res with
        | error e =>
          simp only [canonListF, hh]
          exact h1
        | ok k =>
          have h2 := ihl live s2 rest h1
          rcases hh2 : canonListF f live s2 rest with ⟨res2, s3⟩
          rw [hh2] at h2
          cases res2 <;> simp only [canonListF, hh, hh2] <;> exact h2
    · simp only [getArrayByValueF]
      have h1 := ihl live s vs hInv
      cases hh : canonListF f live s vs with
      | mk res s2 =>
        rw [hh] at h1
        cases res with
        | error e => simpa using h1
        | ok ks =>
          simpa using @InvTree_get live arrayCtor ks (Obj.mk arrayCtor true false ks)
            s2 h1 rfl

theorem refsBelowChildrenB_lookup {m : List (Key × CacheTreeNode)} {k : Key}
    {child : CacheTreeNode} {bound : Nat} (h : refsBelowChildrenB m bound = true)
    (hl : alookup m k = some child) : refsBelowB child bound = true := by
  induction m with
  | nil => simp [alookup] at hl
  | cons e rest ih =>
    obtain ⟨k0, v0⟩ := e
    simp only [refsBelowChildrenB, Bool.and_eq_true] at h
    by_cases h0 : svzKey k0 k = true
    · simp only [alookup, h0, if_true, Option.some_inj] at hl
      rw [← hl]; exact h.1
    · simp only [alookup, h0, if_false] at hl
      simp only [Bool.false_eq_true] at hl
      exact ih h.2 (by simpa using hl)

/-- Soundness of the bound check: every reference recorded anywhere in the
tree is below the bound. -/
theorem refsBelowB_sound {t : CacheTreeNode} {bound : Nat}
    (h : refsBelowB t bound = true) :
    ∀ q j, pathInst t q = some j → j < bound := by
  intro q
  induction q generalizing t with
  | nil =>
    intro j hq
    obtain ⟨c, r⟩ := t
    simp only [pathInst, lookupNode, Option.some_bind, CacheTreeNode.instanceRef_mk] at hq
    subst hq
    cases c with
    | none =>
      have h' : (decide (j < bound) && true) = true := h
      simpa using h'
    | some m =>
      have h' : (decide (j < bound) && refsBelowChildrenB m bound) = true := h
      rw [Bool.and_eq_true] at h'
      simpa using h'.1
  | cons k rest ih =>
    intro j hq
    obtain ⟨c, r⟩ := t
    cases c with
    | none => simp [pathInst, lookupNode] at hq
    | some m =>
      simp only [pathInst, lookupNode] at hq
      cases hl : alookup m k with
      | none => simp [hl] at hq
      | some child =>
        rw [hl] at hq
        have hch : refsBelowChildrenB m bound = true := by
          cases r with
          | none =>
            have h' : (true && refsBelowChildrenB m bound) = true := h
            simpa using h'
          | some i0 =>
            have h' : (decide (i0 < bound) && refsBelowChildrenB m bound) = true := h
            rw [Bool.and_eq_true] at h'
            exact h'.2
        exact ih (refsBelowChildrenB_lookup hch hl) j (by simpa [pathInst] using hq)

theorem lookupNode_append (t : CacheTreeNode) (a b : List Key) :
    lookupNode t (a ++ b) = (lookupNode t a).bind (fun n => lookupNode n b) := by
  induction a generalizing t with
  | nil => simp [lookupNode]
  | cons k as ih =>
    obtain ⟨c, r⟩ := t
    cases c with
    | none => simp [lookupNode]
    | some m =>
      simp only [List.cons_append, lookupNode]
      cases alookup m k with
      | none => simp
      | some child => exact ih child

theorem lookupNode_prefix {t : CacheTreeNode} {q q' : List Key} {n : CacheTreeNode}
    (h : lookupNode t q = some n) (hp : q' <+: q) :
    (lookupNode t q').isSome := by
  obtain ⟨rest, hrest⟩ := hp
  rw [← hrest, lookupNode_append] at h
  cases hl : lookupNode t q' with
  | none => rw [hl] at h; simp at h
  | some n1 => simp

theorem cachedAt_none_of_pathInst_none {live : Nat → Bool} {t : CacheTreeNode}
    {p : List Key} (h : pathInst t p = none) : cachedAt live t p = none := by
  simp only [pathInst] at h
  simp only [cachedAt]
  cases hl : lookupNode t p with
  | none => simp
  | some n =>
    rw [hl] at h
    simp only [Option.some_bind] at h ⊢
    simp [h, derefO]

theorem pruneStep_removed_of {live : Nat → Bool} {n : CacheTreeNode}
    (h1 : normChildren n.children = none) (h2 : derefO live n.instanceRef = none) :
    pruneStep live n = PruneRes.removed := by
  simp [pruneStep, h1, h2]

/-- A node that holds nothing — cleared children, dead reference — is
unlinked from the tree by the pruning walk. -/
theorem pruneAux_removes (live : Nat → Bool) (p : List Key) :
    ∀ t : CacheTreeNode, goodTreeB t = true →
      ∀ n, lookupNode t p = some n →
      normChildren n.children = none → derefO live n.instanceRef = none → p ≠ [] →
      ∀ t', pruneAux live t p = PruneRes.stop t' → lookupNode t' p = none := by
  induction p with
  | nil => intro t _ n _ _ _ hne; exact absurd rfl hne
  | cons k rest ih =>
    intro t hg n hlook hnc hnr _ t' h
    obtain ⟨c, r0⟩ := t
    cases c with
    | none => simp [lookupNode] at hlook
    | some m =>
      simp only [lookupNode] at hlook
      cases hl : alookup m k with
      | none => simp [hl] at hlook
      | some child =>
        rw [hl] at hlook
        obtain ⟨hgk, hgc⟩ := goodTreeB_children hg
        have hgchild := goodChildrenB_lookup hgc hl
        cases hrec : pruneAux live child rest with
        | stop c' =>
          simp only [pruneAux, CacheTreeNode.children_mk, hl, hrec,
            PruneRes.stop.injEq] at h
          subst h
          simp only [lookupNode, alookup_aset_svz _ _ (svzKey_refl k)]
          cases rest with
          | nil =>
            simp only [lookupNode, Option.some_inj] at hlook
            subst hlook
            rw [show pruneAux live child [] = pruneStep live child from rfl,
              pruneStep_removed_of hnc hnr] at hrec
            exact absurd hrec (by simp)
          | cons k2 rest2 =>
            exact ih child hgchild n hlook hnc hnr (by simp) c' hrec
        | removed =>
          simp only [pruneAux, CacheTreeNode.children_mk, hl, hrec] at h
          rw [pruneStep_stop_shape h]
          by_cases he : (adelete m k).isEmpty = true
          · simp [CacheTreeNode.children, normChildren, he, lookupNode]
          · simp [CacheTreeNode.children, normChildren, he, lookupNode,
              alookup_adelete_svz_good hgk (svzKey_refl k)]

theorem pruneRoot_removes {live : Nat → Bool} {t : CacheTreeNode} {p : List Key}
    {n : CacheTreeNode} (hg : goodTreeB t = true) (hlook : lookupNode t p = some n)
    (hnc : normChildren n.children = none) (hnr : derefO live n.instanceRef = none)
    (hne : p ≠ []) : lookupNode (pruneRoot live t p) p = none := by
  unfold pruneRoot
  cases h : pruneAux live t p with
  | removed => exact lookupNode_empty p hne
  | stop t' => exact pruneAux_removes live p t hg n hlook hnc hnr hne t' h

/-- C1: while an instance previously interned at a path is still strongly
reachable, every intern call whose canonicalized path is component-wise
same-value-zero equal (`getObjectByValue` and `getArrayByValue` both reduce
to this `#get`) returns that exact instance, does not invoke the factory,
and leaves the store untouched — in particular a NaN component matches NaN
and +0 matches -0, so the factory runs at most once per distinct path while
the instance lives. -/
theorem c1_intern_hit_returns_same_instance (live : Nat → Bool) (ctor : Nat)
    (values : List Key) (fObj : Obj) (s : Store) (p0 : List Key) (i : Nat)
    (hstored : pathInst s.tree p0 = some i)
    (hlive : live i = true)
    (hsvz : pathSVZ p0 (Key.ctorK ctor :: values) = true) :
    (get live ctor values fObj s).result = Except.ok i ∧
    (get live ctor values fObj s).factoryCalled = false ∧
    (get live ctor values fObj s).store = s := by
  have hpi : pathInst s.tree (Key.ctorK ctor :: values) = some i := by
    rw [← pathInst_congr s.tree hsvz]; exact hstored
  rw [get_eq_hit (pathInst_live_cachedAt hpi hlive)]
  exact ⟨rfl, rfl, rfl⟩

/-- C1 witness: after interning at `[ctor 7, NaN, +0]`, a call with
`[ctor 7, NaN, -0]` returns the same instance without calling the factory. -/
theorem c1_witness :
    pathInst nanZeroStore.tree
      [Key.ctorK 7, Key.prim (Prim.num JSNum.nan), Key.prim (Prim.num (JSNum.int 0))] =
        some 0 ∧
    (get allLive 7 [Key.prim (Prim.num JSNum.nan), Key.prim (Prim.num JSNum.negZero)]
      (Obj.mk 7 false false []) nanZeroStore).result = Except.ok 0 ∧
    (get allLive 7 [Key.prim (Prim.num JSNum.nan), Key.prim (Prim.num JSNum.negZero)]
      (Obj.mk 7 false false []) nanZeroStore).factoryCalled = false ∧
    (get allLive 7 [Key.prim (Prim.num JSNum.nan), Key.prim (Prim.num JSNum.negZero)]
      (Obj.mk 7 false false []) nanZeroStore).store = nanZeroStore := by
  have h := c1_intern_hit_returns_same_instance allLive 7
    [Key.prim (Prim.num JSNum.nan), Key.prim (Prim.num JSNum.negZero)]
    (Obj.mk 7 false false []) nanZeroStore
    [Key.ctorK 7, Key.prim (Prim.num JSNum.nan), Key.prim (Prim.num (JSNum.int 0))] 0
    rfl rfl rfl
  exact ⟨rfl, h.1, h.2.1, h.2.2⟩

/-- C2: the pruning callback clears an instance slot only when the instance
is dead and unlinks only information-free nodes: every live interned
instance stays recorded at its path, every ancestor of a live path is
retained, and a node whose children slot is cleared and whose instance is
dead is removed from its parent's child map. -/
theorem c2_prune_is_safe_and_removes_dead (live : Nat → Bool) (t : CacheTreeNode)
    (p : List Key) :
    (∀ q i, pathInst t q = some i → live i = true →
        pathInst (pruneRoot live t p) q = some i) ∧
    (∀ q i q', pathInst t q = some i → live i = true → q' <+: q →
        (lookupNode (pruneRoot live t p) q').isSome) ∧
    (goodTreeB t = true → ∀ n, lookupNode t p = some n →
        normChildren n.children = none → derefO live n.instanceRef = none → p ≠ [] →
        lookupNode (pruneRoot live t p) p = none) := by
  refine ⟨pruneRoot_preserves live t p, ?_, ?_⟩
  · intro q i q' hq hlive hpre
    have h1 := pruneRoot_preserves live t p q i hq hlive
    simp only [pathInst] at h1
    cases hl : lookupNode (pruneRoot live t p) q with
    | none => rw [hl] at h1; simp at h1
    | some n => exact lookupNode_prefix hl hpre
  · intro hg n hlook hnc hnr hne
    exact pruneRoot_removes hg hlook hnc hnr hne

/-- C2 witness: with object 0 dead and object 1 live, pruning object 0's
recorded path keeps object 1's path (and its ancestor) intact and removes
the dead terminal node. -/
theorem c2_witness :
    pathInst (pruneRoot liveExceptZero twoEntryStore.tree
        [Key.ctorK 1, Key.prim (Prim.num (JSNum.int 5))])
      [Key.ctorK 1, Key.prim (Prim.num (JSNum.int 6))] = some 1 ∧
    (lookupNode (pruneRoot liveExceptZero twoEntryStore.tree
        [Key.ctorK 1, Key.prim (Prim.num (JSNum.int 5))])
      [Key.ctorK 1]).isSome ∧
    lookupNode (pruneRoot liveExceptZero twoEntryStore.tree
        [Key.ctorK 1, Key.prim (Prim.num (JSNum.int 5))])
      [Key.ctorK 1, Key.prim (Prim.num (JSNum.int 5))] = none := by
  have h := c2_prune_is_safe_and_removes_dead liveExceptZero twoEntryStore.tree
    [Key.ctorK 1, Key.prim (Prim.num (JSNum.int 5))]
  refine ⟨?_, ?_, ?_⟩
  · exact h.1 [Key.ctorK 1, Key.prim (Prim.num (JSNum.int 6))] 1 rfl rfl
  · exact h.2.1 [Key.ctorK 1, Key.prim (Prim.num (JSNum.int 6))] 1 [Key.ctorK 1] rfl rfl
      ⟨[Key.prim (Prim.num (JSNum.int 6))], rfl⟩
  · exact h.2.2 rfl (CacheTreeNode.mk none (some 0)) rfl rfl rfl (by simp)

/-- C4: a factory that returns an instance whose constructor differs from
the requested one makes the call throw the `TypeError` synchronously; the
mismatched instance (the next heap index) is never returned and never
stored anywhere in the tree. -/
theorem c4_factory_type_mismatch_fails (live : Nat → Bool) (ctor : Nat)
    (values : List Key) (fObj : Obj) (s : Store)
    (hmiss : cachedAt live s.tree (Key.ctorK ctor :: values) = none)
    (hctor : fObj.ctor ≠ ctor)
    (hbound : refsBelowB s.tree s.heap.length = true) :
    (get live ctor values fObj s).result = Except.error Err.factoryTypeMismatch ∧
    ∀ q, pathInst (get live ctor values fObj s).store.tree q ≠ some s.heap.length := by
  rw [get_eq_miss_err hmiss hctor]
  refine ⟨rfl, fun q hq => ?_⟩
  have h1 := pathInst_walkEnsure_some hq
  exact absurd (refsBelowB_sound hbound q _ h1) (lt_irrefl _)

/-- C4 witness: from the empty cache, a factory building an object of
constructor 6 for a request with constructor 5 makes `#get` throw, and the
mismatched object 0 is not stored at the request's own path. -/
theorem c4_witness :
    (get allLive 5 [] (Obj.mk 6 false false []) emptyStore).result =
      Except.error Err.factoryTypeMismatch ∧
    pathInst (get allLive 5 [] (Obj.mk 6 false false []) emptyStore).store.tree
      [Key.ctorK 5] ≠ some 0 := by
  have h := c4_factory_type_mismatch_fails allLive 5 [] (Obj.mk 6 false false [])
    emptyStore rfl (by decide) rfl
  exact ⟨h.1, h.2 [Key.ctorK 5]⟩

/-- C7: once an interned instance is dead and the finalization callback has
pruned its recorded path, re-interning the same path calls the factory and
returns a fresh instance (not the defunct one), and every unrelated live
path survives both the pruning and the re-interning untouched. -/
theorem c7_reclaimed_path_interns_fresh (live : Nat → Bool) (ctor : Nat)
    (values : List Key) (fObj : Obj) (s : Store) (i : Nat)
    (hstored : pathInst s.tree (Key.ctorK ctor :: values) = some i)
    (hdead : live i = false)
    (hctor : fObj.ctor = ctor)
    (hgood : goodTreeB s.tree = true)
    (hbound : refsBelowB s.tree s.heap.length = true) :
    (pruneThenGet live ctor values fObj s).factoryCalled = true ∧
    (pruneThenGet live ctor values fObj s).result = Except.ok s.heap.length ∧
    s.heap.length ≠ i ∧
    ∀ q j, pathInst s.tree q = some j → live j = true →
      pathInst (pruneThenGet live ctor values fObj s).store.tree q = some j := by
  have hkill : pathInst (pruneRoot live s.tree (Key.ctorK ctor :: values))
      (Key.ctorK ctor :: values) = none :=
    pruneRoot_kills hgood hstored hdead
  have hmiss : cachedAt live (pruneRoot live s.tree (Key.ctorK ctor :: values))
      (Key.ctorK ctor :: values) = none :=
    cachedAt_none_of_pathInst_none hkill
  have hget := get_eq_miss_ok
    (s := ⟨pruneRoot live s.tree (Key.ctorK ctor :: values), s.heap⟩) hmiss hctor
  refine ⟨?_, ?_, ?_, ?_⟩
  · unfold pruneThenGet; rw [hget]
  · unfold pruneThenGet; rw [hget]
  · intro he
    have hlt := refsBelowB_sound hbound (Key.ctorK ctor :: values) i hstored
    omega
  · intro q j hq hlj
    unfold pruneThenGet; rw [hget]
    have h1 : pathInst (pruneRoot live s.tree (Key.ctorK ctor :: values)) q = some j :=
      pruneRoot_preserves live s.tree (Key.ctorK ctor :: values) q j hq hlj
    show pathInst (insertRef (pruneRoot live s.tree (Key.ctorK ctor :: values))
      (Key.ctorK ctor :: values) s.heap.length) q = some j
    rw [pathInst_insertRef]
    by_cases hsq : pathSVZ (Key.ctorK ctor :: values) q = true
    · exfalso
      rw [pathInst_congr _ hsq] at hkill
      rw [hkill] at h1
      exact absurd h1 (by simp)
    · simp only [hsq, if_false]
      exact h1

/-- C7 witness: object 0 (path `[ctor 1, 5]`) dies and its path is pruned;
re-interning `[ctor 1, 5]` calls the factory and returns the fresh object
2, while the live object 1 stays at `[ctor 1, 6]`. -/
theorem c7_witness :
    (pruneThenGet liveExceptZero 1 [Key.prim (Prim.num (JSNum.int 5))]
      (Obj.mk 1 false false []) twoEntryStore).factoryCalled = true ∧
    (pruneThenGet liveExceptZero 1 [Key.prim (Prim.num (JSNum.int 5))]
      (Obj.mk 1 false false []) twoEntryStore).result = Except.ok 2 ∧
    pathInst (pruneThenGet liveExceptZero 1 [Key.prim (Prim.num (JSNum.int 5))]
      (Obj.mk 1 false false []) twoEntryStore).store.tree
      [Key.ctorK 1, Key.prim (Prim.num (JSNum.int 6))] = some 1 := by
  have h := c7_reclaimed_path_interns_fresh liveExceptZero 1
    [Key.prim (Prim.num (JSNum.int 5))] (Obj.mk 1 false false []) twoEntryStore 0
    rfl rfl rfl rfl rfl
  exact ⟨h.1, h.2.1, h.2.2.2 [Key.ctorK 1, Key.prim (Prim.num (JSNum.int 6))] 1 rfl rfl⟩

theorem InvTree_empty : InvTree emptyStore.tree := by
  intro q n hq hl
  cases q with
  | nil => exact absurd rfl hq
  | cons k rest =>
    have hl' : lookupNode (CacheTreeNode.mk none none) (k :: rest) = some n := hl
    rw [lookupNode_empty (k :: rest) hq] at hl'
    exact absurd hl' (by simp)

/-- C3 counterexample: a `getObjectByValue` whose factory fails the
constructor check throws, but the walk has already linked a fresh node with
no children and no instance reference into the tree — the claimed invariant
is violated after an erroring public operation. -/
theorem c3_counterexample :
    (getObjectByValueF 1 allLive 5 [] (Obj.mk 6 false false []) emptyStore).result =
      Except.error Err.factoryTypeMismatch ∧
    lookupNode (getObjectByValueF 1 allLive 5 [] (Obj.mk 6 false false [])
      emptyStore).store.tree [Key.ctorK 5] = some (CacheTreeNode.mk none none) ∧
    ¬ InvTree (getObjectByValueF 1 allLive 5 [] (Obj.mk 6 false false [])
      emptyStore).store.tree := by
  refine ⟨rfl, rfl, fun h => ?_⟩
  have := h [Key.ctorK 5] (CacheTreeNode.mk none none) (by simp) rfl
  simp [hasContent, CacheTreeNode.children, CacheTreeNode.instanceRef] at this

/-- C3 (amended): after every public operation that does not throw the
factory-type `TypeError` — `getByValue` and `getArrayByValue` always (their
internal array factories are well-typed by construction), and every
`getObjectByValue` that returns successfully — every non-root node
reachable from the root has at least one child or an instance reference.
An operation that throws the factory-type `TypeError` can instead leave
freshly created empty nodes linked in, because `#get` creates the path's
nodes before invoking the factory (see the counterexample). -/
theorem c3_invariant_after_success :
    (∀ fuel live s v, InvTree s.tree → InvTree (getByValueF fuel live s v).2.tree) ∧
    (∀ fuel live s vs, InvTree s.tree → InvTree (getArrayByValueF fuel live s vs).2.tree) ∧
    (∀ fuel live ctor values fObj s i, InvTree s.tree →
      (getObjectByValueF fuel live ctor values fObj s).result = Except.ok i →
      InvTree (getObjectByValueF fuel live ctor values fObj s).store.tree) := by
  refine ⟨fun fuel live s v => (InvTree_canon fuel).1 live s v,
          fun fuel live s vs => (InvTree_canon fuel).2.2 live s vs, ?_⟩
  intro fuel live ctor values fObj s i hInv hok
  have h2 : InvTree (canonListF fuel live s values).2.tree :=
    (InvTree_canon fuel).2.1 live s values hInv
  unfold getObjectByValueF at hok ⊢
  rcases hc : canonListF fuel live s values with ⟨res, s2⟩
  rw [hc] at hok h2
  cases res with
  | error e => exact Except.noConfusion hok
  | ok ks => exact InvTree_get_ok h2 hok

/-- C3 witness: the invariant holds after a successful array interning and
after a successful constructor interning, starting from the empty cache. -/
theorem c3_witness :
    InvTree (getArrayByValueF 5 allLive emptyStore [numV 1]).2.tree ∧
    InvTree (getObjectByValueF 5 allLive 3 [] (Obj.mk 3 false false [])
      emptyStore).store.tree :=
  ⟨c3_invariant_after_success.2.1 5 allLive emptyStore [numV 1] InvTree_empty,
   c3_invariant_after_success.2.2 5 allLive 3 [] (Obj.mk 3 false false []) emptyStore 0
     InvTree_empty rfl⟩

/-- C6 counterexample: the public surface has no intern-by-mapping
operation. A plain key/value mapping — in either insertion order — is not a
recognized value: `getByValue` throws the input-validation `TypeError`
instead of returning an interned instance, so no "identical instance" is
ever produced for `{a:1,b:2}` and `{b:2,a:1}`. -/
theorem c6_counterexample :
    getByValueF 2 allLive emptyStore
      (Value.plainObj [("a", numV 1), ("b", numV 2)]) =
      (Except.error Err.invalidValue, emptyStore) ∧
    getByValueF 2 allLive emptyStore
      (Value.plainObj [("b", numV 2), ("a", numV 1)]) =
      (Except.error Err.invalidValue, emptyStore) :=
  ⟨rfl, rfl⟩

/-- C6 (amended): the public surface provides no intern-by-mapping
operation and no `typeTag = "mapping"`; supplying an unordered key/value
mapping (a plain object) as a value is rejected synchronously with the
input-validation `TypeError`, whatever its entry order, and the store is
left unchanged. -/
theorem c6_mapping_not_interned (fuel : Nat) (live : Nat → Bool) (s : Store)
    (entries : List (String × Value)) :
    getByValueF (fuel + 1) live s (Value.plainObj entries) =
      (Except.error Err.invalidValue, s) := rfl

/-- C8: intern calls whose paths differ return distinct instances:
`[1,2]` vs `[2,1]` (order sensitivity), `[1,2]` vs `[1,2,3]` (length
sensitivity), and constructor 1 vs constructor 2 with identical parameters
(type discrimination) produce the five pairwise distinct instances 0–4. -/
theorem c8_distinct_paths_distinct_instances :
    (getArrayByValueF 5 allLive emptyStore [numV 1, numV 2]).1 = Except.ok 0 ∧
    (getArrayByValueF 5 allLive
      (getArrayByValueF 5 allLive emptyStore [numV 1, numV 2]).2
      [numV 2, numV 1]).1 = Except.ok 1 ∧
    (getArrayByValueF 5 allLive
      (getArrayByValueF 5 allLive
        (getArrayByValueF 5 allLive emptyStore [numV 1, numV 2]).2
        [numV 2, numV 1]).2
      [numV 1, numV 2, numV 3]).1 = Except.ok 2 ∧
    (getObjectByValueF 5 allLive 1 [numV 1, numV 2] (Obj.mk 1 false false [])
      (getArrayByValueF 5 allLive
        (getArrayByValueF 5 allLive
          (getArrayByValueF 5 allLive emptyStore [numV 1, numV 2]).2
          [numV 2, numV 1]).2
        [numV 1, numV 2, numV 3]).2).result = Except.ok 3 ∧
    (getObjectByValueF 5 allLive 2 [numV 1, numV 2] (Obj.mk 2 false false [])
      (getObjectByValueF 5 allLive 1 [numV 1, numV 2] (Obj.mk 1 false false [])
        (getArrayByValueF 5 allLive
          (getArrayByValueF 5 allLive
            (getArrayByValueF 5 allLive emptyStore [numV 1, numV 2]).2
            [numV 2, numV 1]).2
          [numV 1, numV 2, numV 3]).2).store).result = Except.ok 4 :=
  ⟨rfl, rfl, rfl, rfl, rfl⟩

/-- C9: interning `[[1,2], 3]` twice returns the identical outer instance
(object 1) with the store unchanged by the second call; the inner `[1,2]`
is the identical canonical reference (object 0) in both outer calls — it is
the stored element of the outer array and is what interning `[1,2]` alone
returns. -/
theorem c9_nested_structural_sharing :
    (getArrayByValueF 10 allLive emptyStore
      [Value.arr [numV 1, numV 2], numV 3]).1 = Except.ok 1 ∧
    (getArrayByValueF 10 allLive nestedOnceStore
      [Value.arr [numV 1, numV 2], numV 3]).1 = Except.ok 1 ∧
    (getArrayByValueF 10 allLive nestedOnceStore
      [Value.arr [numV 1, numV 2], numV 3]).2 = nestedOnceStore ∧
    (getArrayByValueF 10 allLive nestedOnceStore [numV 1, numV 2]).1 = Except.ok 0 ∧
    nestedOnceStore.heap[1]? =
      some (Obj.mk arrayCtor true false
        [Key.obj 0, Key.prim (Prim.num (JSNum.int 3))]) :=
  ⟨rfl, rfl, rfl, rfl, rfl⟩

theorem invalidComponentB_append {heap ext : List Obj} {v : Value}
    (h : invalidComponentB heap v = true) :
    invalidComponentB (heap ++ ext) v = true := by
  cases v with
  | plainObj es => rfl
  | prim p => simp [invalidComponentB] at h
  | arr vs => simp [invalidComponentB] at h
  | objRef id =>
    simp only [invalidComponentB] at h ⊢
    cases hh : heap[id]? with
    | none => rw [hh] at h; exact absurd h (by simp)
    | some o =>
      have hlt : id < heap.length := by
        by_contra hc
        rw [List.getElem?_eq_none (by omega)] at hh
        exact absurd hh (by simp)
      rw [hh] at h
      have happ : (heap ++ ext)[id]? = heap[id]? := by
        rw [List.getElem?_append]
        simp [hlt]
      rw [happ, hh]
      exact h

/-- `getByValue` rejects an invalid component immediately, with the store
untouched. -/
theorem getByValueF_invalid {fuel : Nat} {live : Nat → Bool} {s : Store} {v : Value}
    (h : invalidComponentB s.heap v = true) :
    getByValueF (fuel + 1) live s v = (Except.error Err.invalidValue, s) := by
  cases v with
  | plainObj es => rfl
  | prim p => simp [invalidComponentB] at h
  | arr vs => simp [invalidComponentB] at h
  | objRef id =>
    simp only [invalidComponentB] at h
    cases hh : s.heap[id]? with
    | none => rw [hh] at h; exact absurd h (by simp)
    | some o =>
      rw [hh] at h
      simp only [Bool.and_eq_true, Bool.not_eq_true'] at h
      simp [getByValueF, hh, h.1, h.2]

/-- A matching factory makes `#get` succeed (hit or fresh store). -/
theorem get_matching_ok {live : Nat → Bool} {ctor : Nat} {values : List Key} {fObj : Obj}
    {s : Store} (hc : fObj.ctor = ctor) :
    ∃ i, (get live ctor values fObj s).result = Except.ok i := by
  cases h : cachedAt live s.tree (Key.ctorK ctor :: values) with
  | some i => rw [get_eq_hit h]; exact ⟨i, rfl⟩
  | none => rw [get_eq_miss_ok h hc]; exact ⟨s.heap.length, rfl⟩

/-- The canonicalizer can only throw the invalid-value error (or run out of
fuel): its internal array factories always satisfy the constructor check. -/
theorem canon_no_mismatch (fuel : Nat) :
    (∀ live s v, (getByValueF fuel live s v).1 ≠ Except.error Err.factoryTypeMismatch) ∧
    (∀ live s vs, (canonListF fuel live s vs).1 ≠ Except.error Err.factoryTypeMismatch) ∧
    (∀ live s vs,
      (getArrayByValueF fuel live s vs).1 ≠ Except.error Err.factoryTypeMismatch) := by
  induction fuel with
  | zero =>
    refine ⟨fun live s v => ?_, fun live s vs => ?_, fun live s vs => ?_⟩
    · cases v <;> simp [getByValueF]
    · cases vs <;> simp [canonListF]
    · simp [getArrayByValueF]
  | succ f ihf =>
    obtain ⟨ihv, ihl, iha⟩ := ihf
    refine ⟨fun live s v => ?_, fun live s vs => ?_, fun live s vs => ?_⟩
    · cases v with
      | prim p => simp [getByValueF]
      | arr vs =>
        have h := iha live s vs
        simp only [getByValueF]
        rcases hh : getArrayByValueF f live s vs with ⟨res, s2⟩
        rw [hh] at h
        cases res <;> simpa using h
      | objRef id =>
        simp only [getByValueF]
        cases hh : s.heap[id]? with
        | none => simp
        | some o =>
          by_cases ha : o.isArr = true
          · have h := iha live s (o.elems.map keyToValue)
            simp only [ha, if_true]
            rcases hh2 : getArrayByValueF f live s (List.map keyToValue o.elems) with ⟨res, s2⟩
            rw [hh2] at h
            cases res <;> simpa using h
          · by_cases hv : o.isVO = true <;> simp [ha, hv]
      | plainObj es => simp [getByValueF]
    · cases vs with
      | nil => simp [canonListF]
      | cons v rest =>
        have h1 := ihv live s v
        rcases hh : getByValueF f live s v with ⟨res, s2⟩
        rw [hh] at h1
        cases res with
        | error e =>
          simp only [canonListF, hh]
          simpa using h1
        | ok k =>
          have h2 := ihl live s2 rest
          rcases hh2 : canonListF f live s2 rest with ⟨res2, s3⟩
          rw [hh2] at h2
          cases res2 <;> simp only [canonListF, hh, hh2] <;> simpa using h2
    · simp only [getArrayByValueF]
      have h1 := ihl live s vs
      rcases hh : canonListF f live s vs with ⟨res, s2⟩
      rw [hh] at h1
      cases res with
      | error e => simpa using h1
      | ok ks =>
        obtain ⟨i, hi⟩ := @get_matching_ok live arrayCtor ks
          (Obj.mk arrayCtor true false ks) s2 rfl
        simp [hi]

theorem get_heap_ext (live : Nat → Bool) (ctor : Nat) (values : List Key) (fObj : Obj)
    (s : Store) : ∃ ext, (get live ctor values fObj s).store.heap = s.heap ++ ext := by
  cases h : cachedAt live s.tree (Key.ctorK ctor :: values) with
  | some i => rw [get_eq_hit h]; exact ⟨[], by simp⟩
  | none =>
    by_cases hc : fObj.ctor = ctor
    · rw [get_eq_miss_ok h hc]; exact ⟨[fObj], rfl⟩
    · rw [get_eq_miss_err h hc]; exact ⟨[fObj], rfl⟩

/-- The canonicalizer only ever appends to the heap: it allocates, never
mutates existing objects. -/
theorem canon_heap_ext (fuel : Nat) :
    (∀ live s v, ∃ ext, (getByValueF fuel live s v).2.heap = s.heap ++ ext) ∧
    (∀ live s vs, ∃ ext, (canonListF fuel live s vs).2.heap = s.heap ++ ext) ∧
    (∀ live s vs, ∃ ext, (getArrayByValueF fuel live s vs).2.heap = s.heap ++ ext) := by
  induction fuel with
  | zero =>
    refine ⟨fun live s v => ⟨[], ?_⟩, fun live s vs => ⟨[], ?_⟩, fun live s vs => ⟨[], ?_⟩⟩
    · cases v <;> simp [getByValueF]
    · cases vs <;> simp [canonListF]
    · simp [getArrayByValueF]
  | succ f ihf =>
    obtain ⟨ihv, ihl, iha⟩ := ihf
    refine ⟨fun live s v => ?_, fun live s vs => ?_, fun live s vs => ?_⟩
    · cases v with
      | prim p => exact ⟨[], by simp [getByValueF]⟩
      | arr vs =>
        obtain ⟨ext, he⟩ := iha live s vs
        simp only [getByValueF]
        rcases hh : getArrayByValueF f live s vs with ⟨res, s2⟩
        rw [hh] at he
        cases res <;> exact ⟨ext, by simpa using he⟩
      | objRef id =>
        simp only [getByValueF]
        cases hh : s.heap[id]? with
        | none => exact ⟨[], by simp⟩
        | some o =>
          by_cases ha : o.isArr = true
          · obtain ⟨ext, he⟩ := iha live s (o.elems.map keyToValue)
            simp only [ha, if_true]
            rcases hh2 : getArrayByValueF f live s (List.map keyToValue o.elems) with ⟨res, s2⟩
            rw [hh2] at he
            cases res <;> exact ⟨ext, by simpa using he⟩
          · by_cases hv : o.isVO = true <;> exact ⟨[], by simp [ha, hv]⟩
      | plainObj es => exact ⟨[], by simp [getByValueF]⟩
    · cases vs with
      | nil => exact ⟨[], by simp [canonListF]⟩
      | cons v rest =>
        obtain ⟨e1, he1⟩ := ihv live s v
        rcases hh : getByValueF f live s v with ⟨res, s2⟩
        rw [hh] at he1
        cases res with
        | error e => exact ⟨e1, by simpa [canonListF, hh] using he1⟩
        | ok k =>
          obtain ⟨e2, he2⟩ := ihl live s2 rest
          rcases hh2 : canonListF f live s2 rest with ⟨res2, s3⟩
          rw [hh2] at he2
          cases res2 <;>
            exact ⟨e1 ++ e2, by
              simp only [canonListF, hh, hh2]
              simp only at he1 he2
              rw [he2, he1, List.append_assoc]⟩
    · simp only [getArrayByValueF]
      obtain ⟨e1, he1⟩ := ihl live s vs
      rcases hh : canonListF f live s vs with ⟨res, s2⟩
      rw [hh] at he1
      cases res with
      | error e => exact ⟨e1, by simpa using he1⟩
      | ok ks =>
        obtain ⟨e2, he2⟩ := get_heap_ext live arrayCtor ks (Obj.mk arrayCtor true false ks) s2
        exact ⟨e1 ++ e2, by
          simp only at he1
          rw [he2, he1, List.append_assoc]⟩

theorem rootChildAt_insertRef_cons_ne {t : CacheTreeNode} {h1 : Key} {rest : List Key}
    {i : Nat} {k : Key} (hne : svzKey h1 k = false) :
    rootChildAt (insertRef t (h1 :: rest) i) k = rootChildAt t k := by
  obtain ⟨c, r⟩ := t
  simp only [insertRef, rootChildAt, CacheTreeNode.children_mk,
    alookup_aset_ne _ _ hne]
  cases c with
  | none => simp [alookup]
  | some m => rfl

theorem rootChildAt_get_ne {live : Nat → Bool} {ctor : Nat} {values : List Key}
    {fObj : Obj} {s : Store} {k : Key} (hc : fObj.ctor = ctor)
    (hne : svzKey (Key.ctorK ctor) k = false) :
    rootChildAt (get live ctor values fObj s).store.tree k = rootChildAt s.tree k := by
  cases h : cachedAt live s.tree (Key.ctorK ctor :: values) with
  | some i => rw [get_eq_hit h]
  | none => rw [get_eq_miss_ok h hc]; exact rootChildAt_insertRef_cons_ne hne

/-- Every tree mutation of the canonicalizer happens under the `Array`
constructor's root entry: the root child of any other constructor is
untouched. -/
theorem canon_rootChild (fuel : Nat) (k : Key)
    (hk : svzKey (Key.ctorK arrayCtor) k = false) :
    (∀ live s v, rootChildAt (getByValueF fuel live s v).2.tree k = rootChildAt s.tree k) ∧
    (∀ live s vs, rootChildAt (canonListF fuel live s vs).2.tree k = rootChildAt s.tree k) ∧
    (∀ live s vs,
      rootChildAt (getArrayByValueF fuel live s vs).2.tree k = rootChildAt s.tree k) := by
  induction fuel with
  | zero =>
    refine ⟨fun live s v => ?_, fun live s vs => ?_, fun live s vs => ?_⟩
    · cases v <;> simp [getByValueF]
    · cases vs <;> simp [canonListF]
    · simp [getArrayByValueF]
  | succ f ihf =>
    obtain ⟨ihv, ihl, iha⟩ := ihf
    refine ⟨fun live s v => ?_, fun live s vs => ?_, fun live s vs => ?_⟩
    · cases v with
      | prim p => simp [getByValueF]
      | arr vs =>
        have h := iha live s vs
        simp only [getByValueF]
        rcases hh : getArrayByValueF f live s vs with ⟨res, s2⟩
        rw [hh] at h
        cases res <;> simpa using h
      | objRef id =>
        simp only [getByValueF]
        cases hh : s.heap[id]? with
        | none => simp
        | some o =>
          by_cases ha : o.isArr = true
          · have h := iha live s (o.elems.map keyToValue)
            simp only [ha, if_true]
            rcases hh2 : getArrayByValueF f live s (List.map keyToValue o.elems) with ⟨res, s2⟩
            rw [hh2] at h
            cases res <;> simpa using h
          · by_cases hv : o.isVO = true <;> simp [ha, hv]
      | plainObj es => simp [getByValueF]
    · cases vs with
      | nil => simp [canonListF]
      | cons v rest =>
        have h1 := ihv live s v
        rcases hh : getByValueF f live s v with ⟨res, s2⟩
        rw [hh] at h1
        cases res with
        | error e =>
          simp only [canonListF, hh]
          simpa using h1
        | ok kk =>
          have h2 := ihl live s2 rest
          rcases hh2 : canonListF f live s2 rest with ⟨res2, s3⟩
          rw [hh2] at h2
          cases res2 <;> simp only [canonListF, hh, hh2] <;>
            simp only at h1 h2 ⊢ <;> rw [h2, h1]
    · simp only [getArrayByValueF]
      have h1 := ihl live s vs
      rcases hh : canonListF f live s vs with ⟨res, s2⟩
      rw [hh] at h1
      cases res with
      | error e => simpa using h1
      | ok ks =>
        have h2 := @rootChildAt_get_ne live arrayCtor ks
          (Obj.mk arrayCtor true false ks) s2 k rfl hk
        simp only at h1 h2 ⊢
        rw [h2, h1]

/-- Canonicalizing a component list that contains an invalid component
throws the invalid-value error (unless the artificial fuel bound is hit
first). -/
theorem canonListF_invalid : ∀ (vs : List Value) (fuel : Nat) (live : Nat → Bool)
    (s : Store), (∃ v ∈ vs, invalidComponentB s.heap v = true) →
    (canonListF fuel live s vs).1 = Except.error Err.invalidValue ∨
    (canonListF fuel live s vs).1 = Except.error Err.noFuel := by
  intro vs
  induction vs with
  | nil =>
    intro fuel live s h
    obtain ⟨v, hv, _⟩ := h
    simp at hv
  | cons v rest ih =>
    intro fuel live s h
    cases fuel with
    | zero => right; rfl
    | succ f =>
      by_cases hv : invalidComponentB s.heap v = true
      · cases f with
        | zero =>
          right
          simp [canonListF, getByValueF]
        | succ f2 =>
          left
          have hge := @getByValueF_invalid f2 live s v hv
          simp [canonListF, hge]
      · have hrest : ∃ w ∈ rest, invalidComponentB s.heap w = true := by
          obtain ⟨w, hw, hwi⟩ := h
          cases List.mem_cons.mp hw with
          | inl he => subst he; exact absurd hwi hv
          | inr hr => exact ⟨w, hr, hwi⟩
        rcases hg : getByValueF f live s v with ⟨res, s2⟩
        cases res with
        | error e =>
          have hnm := (canon_no_mismatch f).1 live s v
          rw [hg] at hnm
          cases e with
          | invalidValue => left; simp [canonListF, hg]
          | factoryTypeMismatch => exact absurd rfl hnm
          | noFuel => right; simp [canonListF, hg]
        | ok kk =>
          obtain ⟨ext, hext⟩ := (canon_heap_ext f).1 live s v
          rw [hg] at hext
          have hrest2 : ∃ w ∈ rest, invalidComponentB s2.heap w = true := by
            obtain ⟨w, hr, hwi⟩ := hrest
            refine ⟨w, hr, ?_⟩
            simp only at hext
            rw [hext]
            exact invalidComponentB_append hwi
          have hi := ih f live s2 hrest2
          rcases hcl : canonListF f live s2 rest with ⟨res2, s3⟩
          rw [hcl] at hi
          cases res2 with
          | ok ks2 => simp at hi
          | error e2 =>
            cases hi with
            | inl hi2 => left; simp only [canonListF, hg, hcl]; simpa using hi2
            | inr hi2 => right; simp only [canonListF, hg, hcl]; simpa using hi2

/-- C5: a component that is neither a primitive, nor an array, nor a
`ValueObject` instance makes the call fail synchronously during
canonicalization with the (distinct) input-validation `TypeError`:
`getByValue` rejects it with the store completely untouched, and an intern
call (`getArrayByValue`, `getObjectByValue`) containing such a component
fails with that error before its own path is ever looked up or created —
the root entry of the requested constructor is exactly as before. (The
artificial out-of-fuel outcome of the model is excluded by hypothesis;
valid array components situated before the invalid one may already have
been interned as complete entries under the `Array` root entry, which is
the only part of the tree the canonicalizer touches.) -/
theorem c5_invalid_component_rejected :
    (∀ fuel live s v, invalidComponentB s.heap v = true →
        getByValueF (fuel + 1) live s v = (Except.error Err.invalidValue, s)) ∧
    (∀ fuel live s vs, (∃ v ∈ vs, invalidComponentB s.heap v = true) →
        (getArrayByValueF fuel live s vs).1 ≠ Except.error Err.noFuel →
        (getArrayByValueF fuel live s vs).1 = Except.error Err.invalidValue) ∧
    (∀ fuel live ctor values fObj s,
        (∃ v ∈ values, invalidComponentB s.heap v = true) →
        ctor ≠ arrayCtor →
        (getObjectByValueF fuel live ctor values fObj s).result ≠
          Except.error Err.noFuel →
        (getObjectByValueF fuel live ctor values fObj s).result =
          Except.error Err.invalidValue ∧
        rootChildAt (getObjectByValueF fuel live ctor values fObj s).store.tree
          (Key.ctorK ctor) = rootChildAt s.tree (Key.ctorK ctor)) := by
  refine ⟨fun fuel live s v hv => getByValueF_invalid hv, ?_, ?_⟩
  · intro fuel live s vs hinv hnf
    cases fuel with
    | zero => exact absurd rfl hnf
    | succ f =>
      have hd := canonListF_invalid vs f live s hinv
      rcases hcl : canonListF f live s vs with ⟨res, s2⟩
      rw [hcl] at hd
      cases res with
      | ok ks => simp at hd
      | error e =>
        cases hd with
        | inl h2 =>
          have he : e = Err.invalidValue := by simpa using h2
          subst he
          simp [getArrayByValueF, hcl]
        | inr h2 =>
          have he : e = Err.noFuel := by simpa using h2
          subst he
          exact absurd (by simp [getArrayByValueF, hcl]) hnf
  · intro fuel live ctor values fObj s hinv hctor hnf
    have hd := canonListF_invalid values fuel live s hinv
    have hrc := (canon_rootChild fuel (Key.ctorK ctor) (by
        simp only [svzKey, beq_eq_false_iff_ne, ne_eq]
        exact fun hc => hctor hc.symm)).2.1 live s values
    rcases hcl : canonListF fuel live s values with ⟨res, s2⟩
    rw [hcl] at hd hrc
    cases res with
    | ok ks => simp at hd
    | error e =>
      simp only [getObjectByValueF, hcl] at hnf ⊢
      cases hd with
      | inl h2 =>
        have he : e = Err.invalidValue := by simpa using h2
        subst he
        exact ⟨rfl, by simpa using hrc⟩
      | inr h2 =>
        have he : e = Err.noFuel := by simpa using h2
        subst he
        exact absurd rfl hnf

/-- C5 witness: interning `[1, {}]` under constructor 5 throws the
input-validation error and leaves the root entry of constructor 5 exactly
as it was (absent). -/
theorem c5_witness :
    (getObjectByValueF 3 allLive 5 [numV 1, Value.plainObj []]
      (Obj.mk 5 false false []) emptyStore).result = Except.error Err.invalidValue ∧
    rootChildAt (getObjectByValueF 3 allLive 5 [numV 1, Value.plainObj []]
      (Obj.mk 5 false false []) emptyStore).store.tree (Key.ctorK 5) =
      rootChildAt emptyStore.tree (Key.ctorK 5) :=
  c5_invalid_component_rejected.2.2 3 allLive 5 [numV 1, Value.plainObj []]
    (Obj.mk 5 false false []) emptyStore
    ⟨Value.plainObj [], by simp, rfl⟩ (by decide)
    (fun hcon => Err.noConfusion (Except.error.inj hcon))

theorem canonKeyB_mono {n : Nat} {live : Nat → Bool} {s : Store} {k : Key}
    (h : canonKeyB n live s k = true) : canonKeyB (n + 1) live s k = true := by
  induction n generalizing k with
  | zero =>
    cases k with
    | prim p => rfl
    | ctorK c => simp [canonKeyB] at h
    | obj id =>
      cases hh : s.heap[id]? with
      | none => simp [canonKeyB, hh] at h
      | some o =>
        simp only [canonKeyB, hh] at h ⊢
        by_cases ha : o.isArr = true
        · rw [if_pos ha] at h; exact absurd h (by simp)
        · rw [if_neg ha] at h ⊢; exact h
  | succ m ih =>
    cases k with
    | prim p => rfl
    | ctorK c => simp [canonKeyB] at h
    | obj id =>
      cases hh : s.heap[id]? with
      | none => simp [canonKeyB, hh] at h
      | some o =>
        simp only [canonKeyB, hh] at h ⊢
        by_cases ha : o.isArr = true
        · rw [if_pos ha] at h ⊢
          rw [Bool.and_eq_true] at h ⊢
          refine ⟨?_, h.2⟩
          rw [List.all_eq_true] at h ⊢
          exact fun k hk => ih (h.1 k hk)
        · rw [if_neg ha] at h ⊢; exact h

/-- Fixpoint: `getByValue` is the identity (with no store change) on every
canonical component, given enough fuel. Primitives and `ValueObject`
instances pass through; a canonical array re-canonicalizes to its own
stored elements and hits its own cache entry. -/
theorem getByValueF_canon_fix (n : Nat) :
    ∀ (live : Nat → Bool) (s : Store) (k : Key), canonKeyB n live s k = true →
      ∃ N, ∀ f, N ≤ f → getByValueF f live s (keyToValue k) = (Except.ok k, s) := by
  induction n using Nat.strong_induction_on with
  | _ n ihn =>
  intro live s k hk
  cases k with
  | prim p =>
    refine ⟨1, fun f hf => ?_⟩
    obtain ⟨f1, rfl⟩ : ∃ f1, f = f1 + 1 := ⟨f - 1, by omega⟩
    rfl
  | ctorK c => simp [canonKeyB] at hk
  | obj id =>
    cases hh : s.heap[id]? with
    | none => simp [canonKeyB, hh] at hk
    | some o =>
      simp only [canonKeyB, hh] at hk
      by_cases ha : o.isArr = true
      · rw [if_pos ha] at hk
        cases n with
        | zero => exact absurd hk (by simp)
        | succ m =>
          rw [Bool.and_eq_true] at hk
          obtain ⟨helems, hcache⟩ := hk
          rw [List.all_eq_true] at helems
          have hlist : ∀ ks : List Key, (∀ k ∈ ks, canonKeyB m live s k = true) →
              ∃ M, ∀ g, M ≤ g →
                canonListF g live s (ks.map keyToValue) = (Except.ok ks, s) := by
            intro ks
            induction ks with
            | nil => exact fun _ => ⟨0, fun g _ => by cases g <;> rfl⟩
            | cons k1 rest ihl =>
              intro hks
              obtain ⟨M2, hM2⟩ := ihl (fun k hk => hks k (by simp [hk]))
              obtain ⟨N1, hN1⟩ := ihn m (Nat.lt_succ_self m) live s k1 (hks k1 (by simp))
              refine ⟨max N1 M2 + 1, fun g hg => ?_⟩
              obtain ⟨g2, rfl⟩ : ∃ g2, g = g2 + 1 := ⟨g - 1, by omega⟩
              simp only [List.map_cons, canonListF, hN1 g2 (by omega), hM2 g2 (by omega)]
          obtain ⟨M, hM⟩ := hlist o.elems helems
          refine ⟨M + 2, fun f hf => ?_⟩
          obtain ⟨f1, rfl⟩ : ∃ f1, f = f1 + 1 := ⟨f - 1, by omega⟩
          obtain ⟨f2, rfl⟩ : ∃ f2, f1 = f2 + 1 := ⟨f1 - 1, by omega⟩
          have hd := decide_eq_true_eq.mp hcache
          have hget : get live arrayCtor o.elems (Obj.mk arrayCtor true false o.elems) s =
              ⟨Except.ok id, s, false⟩ := get_eq_hit hd
          simp only [keyToValue, getByValueF, hh, ha, if_true, getArrayByValueF,
            hM f2 (by omega), hget]
      · rw [if_neg ha] at hk
        refine ⟨1, fun f hf => ?_⟩
        obtain ⟨f1, rfl⟩ : ∃ f1, f = f1 + 1 := ⟨f - 1, by omega⟩
        simp [keyToValue, getByValueF, hh, ha, hk]

theorem StoreOK_empty (live : Nat → Bool) : StoreOK live emptyStore := by
  intro ks id h
  have h' : cachedAt live (CacheTreeNode.mk none none)
      (Key.ctorK arrayCtor :: ks) = some id := h
  rw [cachedAt_empty] at h'
  exact absurd h' (by simp)

theorem getElem?_append_of_some {heap ext : List Obj} {id : Nat} {o : Obj}
    (h : heap[id]? = some o) : (heap ++ ext)[id]? = some o := by
  have hlt : id < heap.length := by
    by_contra hc
    rw [List.getElem?_eq_none (by omega)] at h
    exact absurd h (by simp)
  rw [List.getElem?_append]
  simp [hlt, h]

/-- Canonicity survives any store change that keeps existing heap objects
and existing live cache entries. -/
theorem canonKeyB_mono_store {live : Nat → Bool} {s s' : Store} {n : Nat} {k : Key}
    (hheap : ∀ (id : Nat) (o : Obj), s.heap[id]? = some o → s'.heap[id]? = some o)
    (hcache : ∀ p id, cachedAt live s.tree p = some id →
        cachedAt live s'.tree p = some id)
    (h : canonKeyB n live s k = true) : canonKeyB n live s' k = true := by
  induction n generalizing k with
  | zero =>
    cases k with
    | prim p => rfl
    | ctorK c => simp [canonKeyB] at h
    | obj id =>
      cases hh : s.heap[id]? with
      | none => simp [canonKeyB, hh] at h
      | some o =>
        simp only [canonKeyB, hh] at h
        simp only [canonKeyB, hheap id o hh]
        by_cases ha : o.isArr = true
        · rw [if_pos ha] at h; exact absurd h (by simp)
        · rw [if_neg ha] at h ⊢; exact h
  | succ m ih =>
    cases k with
    | prim p => rfl
    | ctorK c => simp [canonKeyB] at h
    | obj id =>
      cases hh : s.heap[id]? with
      | none => simp [canonKeyB, hh] at h
      | some o =>
        simp only [canonKeyB, hh] at h
        simp only [canonKeyB, hheap id o hh]
        by_cases ha : o.isArr = true
        · rw [if_pos ha] at h ⊢
          rw [Bool.and_eq_true] at h ⊢
          refine ⟨?_, ?_⟩
          · rw [List.all_eq_true] at h ⊢
            exact fun k hk => ih (h.1 k hk)
          · rw [decide_eq_true_eq] at h ⊢
            exact hcache _ _ h.2
        · rw [if_neg ha] at h ⊢; exact h

theorem canonKeyB_of_le {live : Nat → Bool} {s : Store} {k : Key} {n N : Nat}
    (hle : n ≤ N) (h : canonKeyB n live s k = true) : canonKeyB N live s k = true := by
  induction N with
  | zero =>
    have : n = 0 := by omega
    subst this
    exact h
  | succ M ih =>
    by_cases he : n = M + 1
    · subst he; exact h
    · exact canonKeyB_mono (ih (by omega))

theorem canonKeyB_uniform {live : Nat → Bool} {s : Store} {ks : List Key}
    (h : ∀ k ∈ ks, ∃ n, canonKeyB n live s k = true) :
    ∃ N, ∀ k ∈ ks, canonKeyB N live s k = true := by
  induction ks with
  | nil => exact ⟨0, by simp⟩
  | cons k1 rest ih =>
    obtain ⟨N2, hN2⟩ := ih (fun k hk => h k (by simp [hk]))
    obtain ⟨N1, hN1⟩ := h k1 (by simp)
    refine ⟨max N1 N2, fun k hk => ?_⟩
    cases List.mem_cons.mp hk with
    | inl he => subst he; exact canonKeyB_of_le (Nat.le_max_left _ _) hN1
    | inr hr => exact canonKeyB_of_le (Nat.le_max_right _ _) (hN2 k hr)

theorem cachedAt_eq_pathInst_of_allLive {live : Nat → Bool} (hl : ∀ i, live i = true)
    (t : CacheTreeNode) (p : List Key) : cachedAt live t p = pathInst t p := by
  simp only [cachedAt, pathInst]
  cases lookupNode t p with
  | none => rfl
  | some n =>
    simp only [Option.some_bind]
    cases n.instanceRef with
    | none => rfl
    | some i => simp [derefO, hl i]

/-- While every interned object stays strongly held, a `#get` with a
matching factory never erases an existing cache entry: a hit changes
nothing, and a miss can only fill a slot that held nothing. -/
theorem get_cached_preserved {live : Nat → Bool} {ctor : Nat} {values : List Key}
    {fObj : Obj} {s : Store} (hl : ∀ i, live i = true) (hc : fObj.ctor = ctor) :
    ∀ p id, cachedAt live s.tree p = some id →
      cachedAt live (get live ctor values fObj s).store.tree p = some id := by
  intro p id hp
  cases h : cachedAt live s.tree (Key.ctorK ctor :: values) with
  | some j => rw [get_eq_hit h]; exact hp
  | none =>
    rw [get_eq_miss_ok h hc]
    rw [cachedAt_eq_pathInst_of_allLive hl] at hp ⊢
    show pathInst (insertRef s.tree (Key.ctorK ctor :: values) s.heap.length) p = some id
    rw [pathInst_insertRef]
    by_cases hsq : pathSVZ (Key.ctorK ctor :: values) p = true
    · exfalso
      rw [cachedAt_eq_pathInst_of_allLive hl, pathInst_congr _ hsq] at h
      rw [h] at hp
      exact absurd hp (by simp)
    · simp only [hsq, if_false]
      exact hp

/-- The array interning of the canonicalizer establishes canonicity: with
all objects held, a store of canonical arrays stays canonical, old
canonical components stay canonical, and the returned array is canonical. -/
theorem get_array_establish {live : Nat → Bool} {s : Store} {ks : List Key}
    (hl : ∀ i, live i = true) (hOK : StoreOK live s)
    (helems : ∀ k ∈ ks, ∃ n, canonKeyB n live s k = true) :
    StoreOK live (get live arrayCtor ks (Obj.mk arrayCtor true false ks) s).store ∧
    (∀ n k, canonKeyB n live s k = true →
      canonKeyB n live (get live arrayCtor ks (Obj.mk arrayCtor true false ks) s).store
        k = true) ∧
    (∀ id, (get live arrayCtor ks (Obj.mk arrayCtor true false ks) s).result =
        Except.ok id →
      ∃ n, canonKeyB n live
        (get live arrayCtor ks (Obj.mk arrayCtor true false ks) s).store
        (Key.obj id) = true) := by
  have hpres : ∀ n k, canonKeyB n live s k = true →
      canonKeyB n live (get live arrayCtor ks (Obj.mk arrayCtor true false ks) s).store
        k = true := by
    intro n k hk
    obtain ⟨ext, hext⟩ := get_heap_ext live arrayCtor ks (Obj.mk arrayCtor true false ks) s
    refine canonKeyB_mono_store ?_ (get_cached_preserved hl rfl) hk
    intro id o ho
    rw [hext]
    exact getElem?_append_of_some ho
  have hfresh : cachedAt live s.tree (Key.ctorK arrayCtor :: ks) = none →
      ∃ n, canonKeyB n live
        (get live arrayCtor ks (Obj.mk arrayCtor true false ks) s).store
        (Key.obj s.heap.length) = true := by
    intro h
    obtain ⟨N, hN⟩ := canonKeyB_uniform
      (fun k hk => (helems k hk).imp (fun n hh => hpres n k hh))
    refine ⟨N + 1, ?_⟩
    rw [get_eq_miss_ok h rfl] at hN ⊢
    have hheap : (s.heap ++ [Obj.mk arrayCtor true false ks])[s.heap.length]? =
        some (Obj.mk arrayCtor true false ks) := by
      rw [List.getElem?_append]
      simp
    simp only [canonKeyB, hheap, if_pos]
    rw [Bool.and_eq_true]
    constructor
    · rw [List.all_eq_true]
      exact fun k hk => hN k hk
    · rw [decide_eq_true_eq, cachedAt_eq_pathInst_of_allLive hl]
      show pathInst (insertRef s.tree (Key.ctorK arrayCtor :: ks) s.heap.length)
        (Key.ctorK arrayCtor :: ks) = some s.heap.length
      rw [pathInst_insertRef, if_pos (pathSVZ_refl _)]
  refine ⟨?_, hpres, ?_⟩
  · cases h : cachedAt live s.tree (Key.ctorK arrayCtor :: ks) with
    | some j => rw [get_eq_hit h]; exact hOK
    | none =>
      intro ks' id' hca
      rw [get_eq_miss_ok h rfl] at hca
      rw [cachedAt_eq_pathInst_of_allLive hl] at hca
      have hca' : pathInst (insertRef s.tree (Key.ctorK arrayCtor :: ks) s.heap.length)
          (Key.ctorK arrayCtor :: ks') = some id' := hca
      rw [pathInst_insertRef] at hca'
      by_cases hsq : pathSVZ (Key.ctorK arrayCtor :: ks) (Key.ctorK arrayCtor :: ks') = true
      · rw [if_pos hsq] at hca'
        have hid : id' = s.heap.length := by
          exact (Option.some_inj.mp hca').symm
        subst hid
        exact hfresh h
      · rw [if_neg hsq] at hca'
        obtain ⟨n, hn⟩ := hOK ks' id' (by
          rw [cachedAt_eq_pathInst_of_allLive hl]; exact hca')
        exact ⟨n, hpres n _ hn⟩
  · intro id hok
    cases h : cachedAt live s.tree (Key.ctorK arrayCtor :: ks) with
    | some j =>
      rw [get_eq_hit h] at hok ⊢
      have hid : j = id := by simpa using hok
      subst hid
      exact hOK ks j h
    | none =>
      rw [get_eq_miss_ok h rfl] at hok
      have hid : id = s.heap.length := by simpa using hok.symm
      subst hid
      exact hfresh h

/-- While all interned objects stay strongly held, every canonicalizer run
keeps the store canonical, keeps previously canonical components canonical,
and produces canonical results. -/
theorem canon_establish (fuel : Nat) (live : Nat → Bool) (hl : ∀ i, live i = true) :
    (∀ s v, StoreOK live s →
      StoreOK live (getByValueF fuel live s v).2 ∧
      (∀ n k, canonKeyB n live s k = true →
        canonKeyB n live (getByValueF fuel live s v).2 k = true) ∧
      (∀ k, (getByValueF fuel live s v).1 = Except.ok k →
        ∃ n, canonKeyB n live (getByValueF fuel live s v).2 k = true)) ∧
    (∀ s vs, StoreOK live s →
      StoreOK live (canonListF fuel live s vs).2 ∧
      (∀ n k, canonKeyB n live s k = true →
        canonKeyB n live (canonListF fuel live s vs).2 k = true) ∧
      (∀ ks, (canonListF fuel live s vs).1 = Except.ok ks →
        ∀ k ∈ ks, ∃ n, canonKeyB n live (canonListF fuel live s vs).2 k = true)) ∧
    (∀ s vs, StoreOK live s →
      StoreOK live (getArrayByValueF fuel live s vs).2 ∧
      (∀ n k, canonKeyB n live s k = true →
        canonKeyB n live (getArrayByValueF fuel live s vs).2 k = true) ∧
      (∀ id, (getArrayByValueF fuel live s vs).1 = Except.ok id →
        ∃ n, canonKeyB n live (getArrayByValueF fuel live s vs).2
          (Key.obj id) = true)) := by
  induction fuel with
  | zero =>
    refine ⟨fun s v hOK => ?_, fun s vs hOK => ?_, fun s vs hOK => ?_⟩
    · cases v <;> exact ⟨hOK, fun n k h => h, fun k hk => Except.noConfusion hk⟩
    · cases vs with
      | nil =>
        refine ⟨hOK, fun n k h => h, fun ks hk kk hkk => ?_⟩
        have he : ([] : List Key) = ks := Except.ok.inj hk
        rw [← he] at hkk
        exact absurd hkk (by simp)
      | cons v rest => exact ⟨hOK, fun n k h => h, fun ks hk => Except.noConfusion hk⟩
    · exact ⟨hOK, fun n k h => h, fun id hk => Except.noConfusion hk⟩
  | succ f ihf =>
    obtain ⟨ihv, ihl, iha⟩ := ihf
    refine ⟨fun s v hOK => ?_, fun s vs hOK => ?_, fun s vs hOK => ?_⟩
    · cases v with
      | prim p =>
        refine ⟨hOK, fun n k h => h, fun k hk => ?_⟩
        cases Except.ok.inj hk
        exact ⟨0, rfl⟩
      | arr vs =>
        rcases hh : getArrayByValueF f live s vs with ⟨res, s2⟩
        have h3 := iha s vs hOK
        rw [hh] at h3
        simp only [getByValueF, hh]
        cases res with
        | ok i =>
          refine ⟨h3.1, h3.2.1, fun k hk => ?_⟩
          cases Except.ok.inj hk
          exact h3.2.2 i rfl
        | error e => exact ⟨h3.1, h3.2.1, fun k hk => Except.noConfusion hk⟩
      | objRef id =>
        cases hh : s.heap[id]? with
        | none =>
          simp only [getByValueF, hh]
          exact ⟨hOK, fun n k h => h, fun k hk => Except.noConfusion hk⟩
        | some o =>
          by_cases ha : o.isArr = true
          · rcases hh2 : getArrayByValueF f live s (o.elems.map keyToValue) with ⟨res, s2⟩
            have h3 := iha s (o.elems.map keyToValue) hOK
            rw [hh2] at h3
            simp only [getByValueF, hh, ha, if_true, hh2]
            cases res with
            | ok i =>
              refine ⟨h3.1, h3.2.1, fun k hk => ?_⟩
              cases Except.ok.inj hk
              exact h3.2.2 i rfl
            | error e => exact ⟨h3.1, h3.2.1, fun k hk => Except.noConfusion hk⟩
          · by_cases hv : o.isVO = true
            · simp only [getByValueF, hh, ha, if_false, hv, if_true]
              refine ⟨hOK, fun n k h => h, fun k hk => ?_⟩
              cases Except.ok.inj hk
              exact ⟨0, by simp [canonKeyB, hh, ha, hv]⟩
            · simp only [getByValueF, hh, ha, if_false, hv]
              exact ⟨hOK, fun n k h => h, fun k hk => Except.noConfusion hk⟩
      | plainObj es =>
        exact ⟨hOK, fun n k h => h, fun k hk => Except.noConfusion hk⟩
    · cases vs with
      | nil =>
        refine ⟨hOK, fun n k h => h, fun ks hk kk hkk => ?_⟩
        have he : ([] : List Key) = ks := Except.ok.inj hk
        rw [← he] at hkk
        exact absurd hkk (by simp)
      | cons v rest =>
        rcases hh : getByValueF f live s v with ⟨res, s2⟩
        have h1 := ihv s v hOK
        rw [hh] at h1
        simp only [canonListF, hh]
        cases res with
        | error e => exact ⟨h1.1, h1.2.1, fun ks hk => Except.noConfusion hk⟩
        | ok k =>
          rcases hh2 : canonListF f live s2 rest with ⟨res2, s3⟩
          have h2 := ihl s2 rest h1.1
          rw [hh2] at h2
          simp only [hh2]
          cases res2 with
          | error e =>
            exact ⟨h2.1, fun n kk h => h2.2.1 n kk (h1.2.1 n kk h),
              fun ks hk => Except.noConfusion hk⟩
          | ok ks0 =>
            refine ⟨h2.1, fun n kk h => h2.2.1 n kk (h1.2.1 n kk h),
              fun ks hk kk hkk => ?_⟩
            have he : k :: ks0 = ks := Except.ok.inj hk
            rw [← he] at hkk
            cases List.mem_cons.mp hkk with
            | inl hkeq =>
              subst hkeq
              obtain ⟨n, hn⟩ := h1.2.2 kk rfl
              exact ⟨n, h2.2.1 n kk hn⟩
            | inr hin => exact h2.2.2 ks0 rfl kk hin
    · rcases hh : canonListF f live s vs with ⟨res, s2⟩
      have h1 := ihl s vs hOK
      rw [hh] at h1
      simp only [getArrayByValueF, hh]
      cases res with
      | error e => exact ⟨h1.1, h1.2.1, fun id hk => Except.noConfusion hk⟩
      | ok ks =>
        have hest := @get_array_establish live s2 ks hl h1.1 (h1.2.2 ks rfl)
        exact ⟨hest.1, fun n k h => hest.2.1 n k (h1.2.1 n k h),
          fun id hok => hest.2.2 id hok⟩

/-- C10: canonicalization is idempotent. `getByValue` is the identity on
primitives and on `ValueObject` instances, and — while every interned
object is still strongly held and the store's array entries are canonical
(true of every store the cache builds, and vacuously of the empty one) — a
second `getByValue` of any result is the identity on it with no store
change at all; in particular re-canonicalizing a previously returned frozen
array hits its own cache entry and returns that same array instance. -/
theorem c10_canonicalization_idempotent :
    (∀ fuel live (s : Store) p, getByValueF (fuel + 1) live s (Value.prim p) =
        (Except.ok (Key.prim p), s)) ∧
    (∀ fuel live (s : Store) id o, s.heap[id]? = some o → o.isArr = false →
        o.isVO = true →
        getByValueF (fuel + 1) live s (Value.objRef id) =
          (Except.ok (Key.obj id), s)) ∧
    (∀ fuel live (s : Store) v k s2, (∀ i, live i = true) → StoreOK live s →
        getByValueF fuel live s v = (Except.ok k, s2) →
        ∃ N, ∀ f, N ≤ f →
          getByValueF f live s2 (keyToValue k) = (Except.ok k, s2)) := by
  refine ⟨fun fuel live s p => rfl, ?_, ?_⟩
  · intro fuel live s id o hh ha hv
    simp [getByValueF, hh, ha, hv]
  · intro fuel live s v k s2 hl hOK hrun
    have h1 := (canon_establish fuel live hl).1 s v hOK
    rw [hrun] at h1
    obtain ⟨n, hn⟩ := h1.2.2 k rfl
    exact getByValueF_canon_fix n live s2 k hn

/-- C10 witness: after interning the array `[1,2]` (object 0) from the
empty cache, feeding the returned array back through `getByValue` returns
the same object 0 with the store untouched. -/
theorem c10_witness :
    ∃ N, ∀ f, N ≤ f →
      getByValueF f allLive
        (getByValueF 10 allLive emptyStore (Value.arr [numV 1, numV 2])).2
        (keyToValue (Key.obj 0)) =
      (Except.ok (Key.obj 0),
        (getByValueF 10 allLive emptyStore (Value.arr [numV 1, numV 2])).2) :=
  c10_canonicalization_idempotent.2.2 10 allLive emptyStore
    (Value.arr [numV 1, numV 2]) (Key.obj 0)
    (getByValueF 10 allLive emptyStore (Value.arr [numV 1, numV 2])).2
    (fun i => rfl) (StoreOK_empty allLive) rfl

end ValueObjectCache
